import Mathlib

/-!
Verification development for the jira-dashboard backend.

Shallow embedding of the parts of the code that the checked properties
concern: the user service (`backend/services/userService.js`), input
validation (`backend/utils/validation.js`), the session manager
(`middleware/sessionManager.js`), the audit logger
(`backend/routes/jira.js`) and the PHI-detection middleware
(`backend/middleware/phiDetector.js`).

Times are modelled in milliseconds as `Nat`.  JavaScript `Date`
subtraction can produce negative numbers; the code only compares such
differences with nonnegative timeouts using a strict `>`, and a negative
difference compares the same way as the truncated `Nat` subtraction
(both are not greater than the timeout), so `Nat` subtraction is
behaviourally faithful here.  Cryptographic primitives (bcrypt compare,
HMAC-SHA256) are modelled as explicit function parameters.
-/

namespace JiraDashboard

/-! ## backend/services/userService.js -/

/-- A stored user record, as created by `createUser` /
`createDefaultAdmin` in `userService.js`.  The `password` field holds
the bcrypt hash. -/
structure User where
  id : String
  username : String
  email : String
  password : String
  role : String
  isActive : Bool
  mustChangePassword : Bool
  loginAttempts : Nat
  lockedUntil : Option Nat
  lastLogin : Option Nat
  deriving Repr, DecidableEq

/-- `handleFailedLogin` from `userService.js`: increments the
failed-attempt counter and, once it has reached 5, sets
`lockedUntil` to `Date.now() + 15 * 60 * 1000`. -/
def handleFailedLogin (u : User) (now : Nat) : User :=
  let attempts := u.loginAttempts + 1
  { u with
    loginAttempts := attempts
    lockedUntil :=
      if attempts ≥ 5 then some (now + 15 * 60 * 1000) else u.lockedUntil }

/-- `handleSuccessfulLogin` from `userService.js`: resets the
failed-attempt counter, clears the lock and records the login time. -/
def handleSuccessfulLogin (u : User) (now : Nat) : User :=
  { u with
    loginAttempts := 0
    lockedUntil := none
    lastLogin := some now }

/-- Result of `authenticateUser`: either success carrying the
(updated) user record and its `mustChangePassword` flag — the real code
returns the record with the password field stripped — or failure with
the error string handed back to the route. -/
inductive AuthResult where
  | success (user : User) (mustChangePassword : Bool)
  | failure (error : String)
  deriving Repr, DecidableEq

/-- The outcome of `authenticateUser` together with the updated user
store (the code mutates the record in its `users` map in place). -/
structure AuthOutcome where
  result : AuthResult
  users : List User
  deriving Repr, DecidableEq

/-- The user lookup in `authenticateUser`:
`users.find(u => u.username === username || u.email === username)`. -/
def findUser (users : List User) (username : String) : Option User :=
  users.find? (fun u => u.username == username || u.email == username)

/-- Replace the record with the given id (the in-place mutation done
through `this.users.get(userId)` in the handlers). -/
def updateUserById (users : List User) (id : String) (f : User → User) :
    List User :=
  users.map (fun v => if v.id == id then f v else v)

/-- `authenticateUser` from `userService.js`.  `bcryptCompare` stands
for `bcrypt.compare(password, user.password)`. -/
def authenticateUser (bcryptCompare : String → String → Bool)
    (users : List User) (username password : String) (now : Nat) :
    AuthOutcome :=
  match findUser users username with
  | none => ⟨.failure "Invalid credentials", users⟩
  | some user =>
    if (match user.lockedUntil with
        | some t => decide (now < t)
        | none => false) then
      ⟨.failure "Account temporarily locked", users⟩
    else if !user.isActive then
      ⟨.failure "Account is disabled", users⟩
    else if !bcryptCompare password user.password then
      ⟨.failure "Invalid credentials",
        updateUserById users user.id (fun v => handleFailedLogin v now)⟩
    else
      ⟨.success (handleSuccessfulLogin user now) user.mustChangePassword,
        updateUserById users user.id (fun v => handleSuccessfulLogin v now)⟩

/-! ## POST /auth/login (routes/auth.js) -/

/-- The externally visible part of the login route's answer on the
authentication path: HTTP status plus the `error` string of the JSON
body (`res.status(401).json({ error: authResult.error })`). -/
structure LoginResponse where
  status : Nat
  error : Option String
  deriving Repr, DecidableEq

/-- The `POST /auth/login` handler after express-validator accepted the
(non-empty) credentials: on failure it forwards the service's error
string in a 401; on success it answers 200. -/
def loginRoute (bcryptCompare : String → String → Bool)
    (users : List User) (username password : String) (now : Nat) :
    LoginResponse :=
  match (authenticateUser bcryptCompare users username password now).result with
  | .failure e => ⟨401, some e⟩
  | .success _ _ => ⟨200, none⟩

/-! ## backend/utils/validation.js -/

/-- Character class `[A-Z]`. -/
def isUpper (c : Char) : Bool := 'A' ≤ c && c ≤ 'Z'

/-- Character class `[0-9]`. -/
def isDigitChar (c : Char) : Bool := '0' ≤ c && c ≤ '9'

/-- Character class `[A-Z0-9]`. -/
def isUpperOrDigit (c : Char) : Bool := isUpper c || isDigitChar c

/-- Character class `[1-9]`. -/
def isNonZeroDigit (c : Char) : Bool := '1' ≤ c && c ≤ '9'

/-- Matcher for the anchored issue-key regex
`^[A-Z][A-Z0-9]*-[1-9][0-9]*$` from `validateIssueKey`.  Because `-`
is not in `[A-Z0-9]`, the star is forced to consume the maximal run, so
the match is deterministic. -/
def issueKeyChars : List Char → Bool
  | c :: rest =>
    if isUpper c then issueKeyAfterHead rest else false
  | [] => false
where
  /-- after `[A-Z]`: consume `[A-Z0-9]*` then require `-[1-9][0-9]*`. -/
  issueKeyAfterHead : List Char → Bool
    | c :: rest =>
      if isUpperOrDigit c then issueKeyAfterHead rest
      else if c == '-' then issueKeyNumber rest
      else false
    | [] => false
  /-- the numeric part `[1-9][0-9]*`. -/
  issueKeyNumber : List Char → Bool
    | c :: rest => if isNonZeroDigit c then issueKeyDigits rest else false
    | [] => false
  /-- trailing `[0-9]*` up to the end anchor. -/
  issueKeyDigits : List Char → Bool
    | c :: rest => if isDigitChar c then issueKeyDigits rest else false
    | [] => true

/-- Result record of the validators in `validation.js`. -/
structure ValidationOutput where
  isValid : Bool
  error : Option String
  deriving Repr, DecidableEq

/-- `validateIssueKey` from `validation.js` (for string inputs; the
non-string guard is outside a typed model).  The regex test comes
first; the length-50 check runs only afterwards. -/
def validateIssueKey (issueKey : String) : ValidationOutput :=
  if !issueKeyChars issueKey.toList then
    ⟨false, some "Invalid issue key format"⟩
  else if issueKey.length > 50 then
    ⟨false, some "Issue key too long"⟩
  else
    ⟨true, none⟩

/-! ## middleware/sessionManager.js -/

/-- A session record as built by `SessionManager.createSession`.
`createdAt` and `lastActivity` are millisecond timestamps; `ipAddress`
is the client address captured by `getClientIP` at creation. -/
structure Session where
  id : String
  userId : String
  userEmail : String
  userDisplayName : String
  createdAt : Nat
  lastActivity : Nat
  ipAddress : String
  userAgent : String
  isActive : Bool
  deriving Repr, DecidableEq

/-- The session registry: the two timeout options and the
`activeSessions` map (modelled as an association list with the usual
first-match lookup). -/
structure SMState where
  sessionTimeout : Nat
  maxSessionTimeout : Nat
  activeSessions : List (String × Session)
  deriving Repr, DecidableEq

/-- `this.activeSessions.get(id)`. -/
def sessionsGet (st : SMState) (id : String) : Option Session :=
  (st.activeSessions.find? (fun p => p.1 == id)).map (·.2)

/-- `this.activeSessions.delete(id)`. -/
def sessionsDelete (st : SMState) (id : String) : SMState :=
  { st with activeSessions := st.activeSessions.filter (fun p => p.1 != id) }

/-- A decoded JWT as produced by `jwt.sign` in `createSession`:
the `sessionId` claim, the `exp` claim in whole seconds, and whether
the signature verifies against the manager's secret (the cryptography
itself is not modelled). -/
structure Token where
  sessionId : String
  exp : Nat
  sigValid : Bool
  deriving Repr, DecidableEq

/-- What `createSession` returns: `{ token, sessionId, expiresAt }`. -/
structure CreatedSession where
  token : Token
  sessionId : String
  expiresAt : Nat
  deriving Repr, DecidableEq

/-- `SessionManager.createSession`.  `sessionId` stands for the fresh
`crypto.randomUUID()`, `ip`/`userAgent` for the request data, and
`userId`/`userEmail`/`userDisplayName` for the fields resolved from
`userInfo`.  The JWT's `exp` claim is
`Math.floor((Date.now() + this.sessionTimeout) / 1000)` — fixed at
issuance. -/
def createSession (st : SMState) (sessionId : String)
    (userId userEmail userDisplayName ip userAgent : String)
    (now : Nat) : CreatedSession × SMState :=
  let session : Session :=
    { id := sessionId
      userId := userId
      userEmail := userEmail
      userDisplayName := userDisplayName
      createdAt := now
      lastActivity := now
      ipAddress := ip
      userAgent := userAgent
      isActive := true }
  let token : Token :=
    { sessionId := sessionId
      exp := (now + st.sessionTimeout) / 1000
      sigValid := true }
  (⟨token, sessionId, now + st.sessionTimeout⟩,
    { st with activeSessions := (sessionId, session) :: st.activeSessions })

/-- A security-audit event emitted by `logSecurityEvent`. -/
structure SecurityEvent where
  eventType : String
  sessionId : String
  reason : String
  deriving Repr, DecidableEq

/-- `SessionManager.terminateSession`: if the id is still registered,
the session is deactivated, removed from the map and one
`SESSION_TERMINATED` audit event is logged; otherwise nothing
happens. -/
def terminateSession (st : SMState) (sessionId : String)
    (reason : String) : SMState × List SecurityEvent :=
  match sessionsGet st sessionId with
  | some _ =>
    (sessionsDelete st sessionId,
      [⟨"SESSION_TERMINATED", sessionId, reason⟩])
  | none => (st, [])

/-- The 401 JSON body sent by `handleInvalidSession`:
`{ error: 'Authentication required', code: errorCode,
requiresLogin: true }` (the human-readable `message` goes only to the
audit log, not to the client). -/
structure ErrorResponse where
  status : Nat
  error : String
  code : String
  requiresLogin : Bool
  deriving Repr, DecidableEq

/-- `SessionManager.handleInvalidSession` (client-visible part). -/
def handleInvalidSession (errorCode : String) : ErrorResponse :=
  ⟨401, "Authentication required", errorCode, true⟩

/-- Outcome of the `validateSession` middleware: either control passes
to the downstream handler (with the registry updated, i.e. key
`lastActivity` refreshed) or a 401 response is sent (possibly after the
session was terminated). -/
inductive ValidationOutcome where
  | next (st : SMState) (sessionId : String)
  | reject (resp : ErrorResponse) (st : SMState)
  deriving Repr, DecidableEq

/-- Refresh `session.lastActivity = now` for the given id (the code
mutates the record held in the map in place). -/
def touchSession (st : SMState) (sessionId : String) (now : Nat) :
    SMState :=
  { st with
    activeSessions := st.activeSessions.map
      (fun p => if p.1 == sessionId then
          (p.1, { p.2 with lastActivity := now }) else p) }

/-- `SessionManager.validateSession`.  `token?` is the result of
`extractToken`; `jwt.verify` first checks the signature
(`JsonWebTokenError`) and then the `exp` claim against
`Math.floor(Date.now() / 1000)` (`TokenExpiredError`).  The timeout
checks reject strictly beyond the configured windows, and the
inactivity/absolute/IP failures terminate the session before
responding. -/
def validateSession (st : SMState) (token? : Option Token)
    (ip : String) (now : Nat) : ValidationOutcome :=
  match token? with
  | none => .reject (handleInvalidSession "NO_TOKEN") st
  | some token =>
    if !token.sigValid then
      .reject (handleInvalidSession "INVALID_TOKEN") st
    else if token.exp ≤ now / 1000 then
      .reject (handleInvalidSession "TOKEN_EXPIRED") st
    else
      match sessionsGet st token.sessionId with
      | none => .reject (handleInvalidSession "SESSION_NOT_FOUND") st
      | some session =>
        if !session.isActive then
          .reject (handleInvalidSession "SESSION_NOT_FOUND") st
        else if now - session.lastActivity > st.sessionTimeout then
          .reject (handleInvalidSession "SESSION_TIMEOUT")
            (terminateSession st token.sessionId "TIMEOUT_INACTIVITY").1
        else if now - session.createdAt > st.maxSessionTimeout then
          .reject (handleInvalidSession "SESSION_EXPIRED")
            (terminateSession st token.sessionId "TIMEOUT_ABSOLUTE").1
        else if session.ipAddress != ip then
          .reject (handleInvalidSession "SESSION_INVALID")
            (terminateSession st token.sessionId "IP_MISMATCH").1
        else
          .next (touchSession st token.sessionId now) token.sessionId

/-! ## backend/routes/jira.js — AuditLogger -/

/-- JSON values, the data model for audit-entry payloads.  A value that
went through `JSON.parse(JSON.stringify(data))` is exactly such a
tree. -/
inductive JVal where
  | null
  | bool (b : Bool)
  | num (n : Int)
  | str (s : String)
  | arr (elems : List JVal)
  | obj (fields : List (String × JVal))
  deriving Repr

/-- Does `l` start with the sequence `pat`? -/
def startsWithSeq : List Char → List Char → Bool
  | [], _ => true
  | _ :: _, [] => false
  | p :: ps, c :: cs => p == c && startsWithSeq ps cs

/-- JavaScript `String.prototype.includes` on character lists. -/
def containsSeq (pat : List Char) : List Char → Bool
  | [] => startsWithSeq pat []
  | c :: cs => startsWithSeq pat (c :: cs) || containsSeq pat cs

/-- The `phiFields` list from `AuditLogger.sanitizeForAudit`. -/
def phiFields : List String :=
  ["ssn", "socialSecurityNumber", "dateOfBirth", "dob", "mrn",
   "medicalRecordNumber", "patientName", "firstName", "lastName",
   "phoneNumber", "address", "diagnosis", "treatment", "medication",
   "symptoms", "patientId", "healthInfo"]

/-- ASCII `String.prototype.toLowerCase` on one character (the key
names and `phiFields` entries are ASCII). -/
def lowerChar (c : Char) : Char :=
  if 'A' ≤ c && c ≤ 'Z' then Char.ofNat (c.toNat + 32) else c

/-- `phiFields.some(phi => key.toLowerCase().includes(phi.toLowerCase()))`. -/
def keyMatchesPHI (key : String) : Bool :=
  phiFields.any (fun phi =>
    containsSeq (phi.toList.map lowerChar) (key.toList.map lowerChar))

mutual
/-- `AuditLogger.removePHIFields`: values stored under a key whose
lowercased name contains one of the `phiFields` names are overwritten
with the fixed redaction marker; other object/array values are visited
recursively; strings and numbers under innocent keys stay unchanged. -/
def removePHIFields : JVal → JVal
  | .obj fields => .obj (removePHIFieldsObj fields)
  | .arr elems => .arr (removePHIFieldsArr elems)
  | v => v

/-- the `for (const key in obj)` loop of `removePHIFields` on an
object. -/
def removePHIFieldsObj : List (String × JVal) → List (String × JVal)
  | [] => []
  | (k, v) :: rest =>
    (k, if keyMatchesPHI k then .str "[REDACTED-PHI]" else removePHIFields v)
      :: removePHIFieldsObj rest

/-- the same loop on an array (the index keys are numeric strings and
never contain one of the alphabetic `phiFields` names). -/
def removePHIFieldsArr : List JVal → List JVal
  | [] => []
  | v :: rest => removePHIFields v :: removePHIFieldsArr rest
end

/-- JavaScript truthiness of a JSON value (`!data`). -/
def isFalsyJ : JVal → Bool
  | .null => true
  | .bool b => !b
  | .num n => n == 0
  | .str s => s == ""
  | _ => false

/-- `AuditLogger.sanitizeForAudit`: falsy payloads become `null`;
otherwise the payload is deep-copied and run through
`removePHIFields`. -/
def sanitizeForAudit (data : JVal) : JVal :=
  if isFalsyJ data then .null else removePHIFields data

/-- Minimal JSON string escaping (the strings occurring in audit
entries contain no control characters, so escaping quote and backslash
is exhaustive for them). -/
def jsonEscapeChar (c : Char) : String :=
  if c == '"' then "\\\"" else if c == '\\' then "\\\\" else String.singleton c

/-- Quote a string as `JSON.stringify` does. -/
def jsonQuote (s : String) : String :=
  "\"" ++ String.join (s.toList.map jsonEscapeChar) ++ "\""

/-- Comma-join. -/
def commaJoin : List String → String
  | [] => ""
  | [x] => x
  | x :: xs => x ++ "," ++ commaJoin xs

mutual
/-- `JSON.stringify(value, allowed)` where `allowed` is a replacer
ARRAY: per the ECMAScript `SerializeJSONObject` algorithm the array
becomes the property list `K`, so at EVERY nesting depth only keys that
appear in `allowed` are serialized, in the order of `allowed`; array
elements are always serialized. -/
def stringifyWith (allowed : List String) : JVal → String
  | .null => "null"
  | .bool b => if b then "true" else "false"
  | .num n => toString n
  | .str s => jsonQuote s
  | .arr elems => "[" ++ commaJoin (stringifyElems allowed elems) ++ "]"
  | .obj fields =>
    "\x7b" ++
      commaJoin (allowed.filterMap (fun k =>
        (stringifyPairs allowed fields).find? (fun p => p.1 == k) |>.map
          (fun p => jsonQuote k ++ ":" ++ p.2))) ++ "\x7d"

/-- stringify every field value (the object case then picks and orders
them by the property list). -/
def stringifyPairs (allowed : List String) :
    List (String × JVal) → List (String × String)
  | [] => []
  | (k, v) :: rest => (k, stringifyWith allowed v) :: stringifyPairs allowed rest

/-- stringify array elements. -/
def stringifyElems (allowed : List String) : List JVal → List String
  | [] => []
  | v :: rest => stringifyWith allowed v :: stringifyElems allowed rest
end

/-- Insert into a `≤`-sorted list of strings (comparison by UTF-16
code units, which for the ASCII keys at hand agrees with Lean's
`String` order). -/
def insertSorted (s : String) : List String → List String
  | [] => [s]
  | x :: xs => if s ≤ x then s :: x :: xs else x :: insertSorted s xs

/-- `Object.keys(entry).sort()`. -/
def sortKeys : List String → List String
  | [] => []
  | x :: xs => insertSorted x (sortKeys xs)

/-- `AuditLogger.calculateIntegrityHash`:
`JSON.stringify(entry, Object.keys(entry).sort())` fed to
HMAC-SHA256; the HMAC itself is an abstract function parameter. -/
def calculateIntegrityHash (hmac : String → String)
    (entry : List (String × JVal)) : String :=
  hmac (stringifyWith (sortKeys (entry.map (·.1))) (.obj entry))

/-- JavaScript object-spread `{...base, ...data}`: keys keep the
position of their first occurrence and the value of their last one. -/
def spreadMerge (base data : List (String × JVal)) :
    List (String × JVal) :=
  (base.map (fun p =>
    match data.find? (fun q => q.1 == p.1) with
    | some q => (p.1, q.2)
    | none => p)) ++
    data.filter (fun q => !(base.any (fun p => p.1 == q.1)))

/-- `AuditLogger.createAuditEntry`: the base fields (fresh `auditId`,
timestamp, application, version, environment) spread together with the
event data, then the integrity digest computed over that object and
appended under the key `integrity`. -/
def createAuditEntry (hmac : String → String)
    (auditId timestamp environment : String)
    (data : List (String × JVal)) : List (String × JVal) :=
  let baseEntry := spreadMerge
    [("auditId", .str auditId),
     ("timestamp", .str timestamp),
     ("application", .str "JIRA_DASHBOARD"),
     ("version", .str "1.0.0"),
     ("environment", .str environment)] data
  baseEntry ++ [("integrity", .str (calculateIntegrityHash hmac baseEntry))]

/-- First value stored under a key. -/
def getField (fields : List (String × JVal)) (k : String) : Option JVal :=
  (fields.find? (fun p => p.1 == k)).map (·.2)

/-- Overwrite the value stored under a key (tampering with one stored
field of an entry). -/
def setField (fields : List (String × JVal)) (k : String) (v : JVal) :
    List (String × JVal) :=
  fields.map (fun p => if p.1 == k then (p.1, v) else p)

/-- Drop a key (reading an entry back without its digest). -/
def removeField (fields : List (String × JVal)) (k : String) :
    List (String × JVal) :=
  fields.filter (fun p => p.1 != k)

/-! ## backend/middleware/phiDetector.js -/

/-- JavaScript word character (`\w` = `[A-Za-z0-9_]`), as used by the
`\b` assertions in the detection patterns. -/
def isWordChar (c : Char) : Bool :=
  ('A' ≤ c && c ≤ 'Z') || ('a' ≤ c && c ≤ 'z') || isDigitChar c || c == '_'

/-- Consume exactly `n` digits (`\d{n}`), returning the rest. -/
def takeDigitsN : Nat → List Char → Option (List Char)
  | 0, cs => some cs
  | _ + 1, [] => none
  | n + 1, c :: cs => if isDigitChar c then takeDigitsN n cs else none

/-- The alternatives of a greedy `-?`, in the engine's preference
order: consume the dash first, fall back to skipping it. -/
def optDashAlts : List Char → List (List Char)
  | [] => [[]]
  | c :: r => if c == '-' then [r, c :: r] else [c :: r]

/-- The trailing `\b` of the ssn pattern: the last matched character is
a digit (a word character), so the boundary holds exactly at the end of
input or before a non-word character. -/
def ssnEndBoundary : List Char → Bool
  | [] => true
  | c :: _ => !isWordChar c

/-- Does `\d{3}-?\d{2}-?\d{4}\b` match starting exactly here
(backtracking over both optional dashes)? -/
def ssnMatchAt (cs : List Char) : Bool :=
  match takeDigitsN 3 cs with
  | none => false
  | some r1 =>
    (optDashAlts r1).any fun r2 =>
      match takeDigitsN 2 r2 with
      | none => false
      | some r3 =>
        (optDashAlts r3).any fun r4 =>
          match takeDigitsN 4 r4 with
          | none => false
          | some r5 => ssnEndBoundary r5

/-- Scan all start positions; `prev` is the character before the
current position, for the leading `\b` (the first matched character is
a digit, so the boundary needs a non-word predecessor or the start of
the text). -/
def hasSSNAux : Option Char → List Char → Bool
  | _, [] => false
  | prev, c :: rest =>
    ((match prev with
      | none => true
      | some p => !isWordChar p) && ssnMatchAt (c :: rest))
    || hasSSNAux (some c) rest

/-- Whether the text contains a match of the PHI scanner's
social-security-number pattern `/\b(?:\d{3}-?\d{2}-?\d{4})\b/g` from
`PHIDetector.initializePatterns`. -/
def hasSSN (s : String) : Bool := hasSSNAux none s.toList

/-- Is a value the fixed redaction marker written by the audit
sanitizer? -/
def isRedactMarker : JVal → Bool
  | .str s => s == "[REDACTED-PHI]"
  | _ => false

mutual
/-- Key-based redaction invariant: every value stored under a key whose
lowercased name contains one of the `phiFields` names is the literal
redaction marker, recursively. -/
def auditRedacted : JVal → Bool
  | .obj fields => auditRedactedObj fields
  | .arr elems => auditRedactedArr elems
  | _ => true

/-- the invariant on object fields. -/
def auditRedactedObj : List (String × JVal) → Bool
  | [] => true
  | (k, v) :: rest =>
    (if keyMatchesPHI k then isRedactMarker v else auditRedacted v)
      && auditRedactedObj rest

/-- the invariant on array elements. -/
def auditRedactedArr : List JVal → Bool
  | [] => true
  | v :: rest => auditRedacted v && auditRedactedArr rest
end

/-- The options of `PHIDetector` (all default to `true`). -/
structure PHIConfig where
  strictMode : Bool
  logViolations : Bool
  blockOnDetection : Bool
  deriving Repr, DecidableEq

/-- Client-visible outcome of the middleware: control passed downstream
with the (possibly replaced) request body, or a 400 block response. -/
inductive MWResult (β : Type) where
  | next (body : β) (phiDetected : Bool)
  | blocked (status : Nat) (code : String)
  deriving Repr, DecidableEq

/-- Outcome plus whether the `catch` handler ran. -/
structure MWRun (β : Type) where
  res : MWResult β
  caught : Bool
  deriving Repr, DecidableEq

/-- `PHIDetector.middleware`.  The request-dependent operations that
can throw are passed as `Except`-valued arguments: scanning the body,
logging a violation, sanitizing the body (`sanitizeObject` builds a new
object, so on a throw the body is unchanged) and scanning the query.
The `try/catch` wraps everything; the catch logs and calls `next()`
with whatever the request body is at that moment. -/
def middleware {β : Type} (cfg : PHIConfig) (body0 : β)
    (scanBody : Except Unit Bool) (logViolation : Except Unit Unit)
    (sanitizeBody : Except Unit β) (scanQuery : Except Unit Bool) :
    MWRun β :=
  match scanBody with
  | .error _ => ⟨.next body0 false, true⟩
  | .ok hasB =>
    if hasB then
      match (if cfg.logViolations then logViolation else .ok ()) with
      | .error _ => ⟨.next body0 false, true⟩
      | .ok _ =>
        if cfg.blockOnDetection then
          ⟨.blocked 400 "PHI_DETECTED", false⟩
        else
          match sanitizeBody with
          | .error _ => ⟨.next body0 false, true⟩
          | .ok b1 =>
            match scanQuery with
            | .error _ => ⟨.next b1 true, true⟩
            | .ok hasQ =>
              if hasQ && cfg.blockOnDetection then
                ⟨.blocked 400 "PHI_DETECTED_QUERY", false⟩
              else
                ⟨.next b1 true, false⟩
    else
      match scanQuery with
      | .error _ => ⟨.next body0 false, true⟩
      | .ok hasQ =>
        if hasQ && cfg.blockOnDetection then
          ⟨.blocked 400 "PHI_DETECTED_QUERY", false⟩
        else
          ⟨.next body0 false, false⟩

/-! ## Concrete scenarios used to settle the claims -/

/-- A registry with the constructor's default timeouts (15 minutes
inactivity, 1 hour absolute) and no sessions. -/
def smInit : SMState := ⟨15 * 60 * 1000, 60 * 60 * 1000, []⟩

/-- A session created at time 0 from address 10.0.0.7. -/
def c1created : CreatedSession × SMState :=
  createSession smInit "sid-1" "u-1" "u@x.io" "u" "10.0.0.7" "UA" 0

/-- The registry after that session's request at minute 10 passed
validation (which refreshed `lastActivity` to 600000). -/
def c1state : SMState :=
  match validateSession c1created.2 (some c1created.1.token) "10.0.0.7" 600000 with
  | .next st _ => st
  | .reject _ st => st

/-- Session validity exactly as the specification sentence puts it:
the session is active, the elapsed time since its last activity is at
most the idle timeout, the elapsed time since its creation is at most
the absolute timeout, and the requester's address equals the bound
address. -/
def specSessionValid (st : SMState) (sid ip : String) (now : Nat) : Bool :=
  match sessionsGet st sid with
  | none => false
  | some s =>
    s.isActive && now - s.lastActivity ≤ st.sessionTimeout
      && now - s.createdAt ≤ st.maxSessionTimeout && s.ipAddress == ip

/-- A concrete stand-in for `bcrypt.compare` in the closed scenarios:
the submitted secret verifies against a stored hash exactly when the
two strings are equal. -/
def bcryptEq : String → String → Bool := fun p h => p == h

/-- An existing but deactivated account. -/
def aliceDisabled : User :=
  ⟨"id-a", "alice", "alice@x.io", "hash-a", "user", false, false, 0, none, none⟩

/-- An existing active account with 4 failed attempts on record. -/
def carolActive : User :=
  ⟨"id-c", "carol", "c@x.io", "pw", "user", true, false, 4, none, none⟩

/-- The event data of a system audit entry whose detail payload holds
one nested string field. -/
def c6data : List (String × JVal) :=
  [("eventType", .str "SYSTEM"), ("systemEventType", .str "CONFIG_CHANGE"),
   ("severity", .str "INFO"),
   ("details", .obj [("message", .str "original")]),
   ("source", .str "SYSTEM_MONITOR")]

/-- The stored audit entry built from that data. -/
def c6entry (hmac : String → String) : List (String × JVal) :=
  createAuditEntry hmac "audit-1" "2024-05-06T07:08:09.000Z" "development" c6data

/-- The digest-free part of that entry (its stored fields except
`integrity`), independent of the HMAC. -/
def c6base : List (String × JVal) :=
  spreadMerge
    [("auditId", .str "audit-1"),
     ("timestamp", .str "2024-05-06T07:08:09.000Z"),
     ("application", .str "JIRA_DASHBOARD"),
     ("version", .str "1.0.0"),
     ("environment", .str "development")] c6data

/-- The same stored entry with one byte of the nested detail value
changed (`original` → `originaL`). -/
def c6tampered (hmac : String → String) : List (String × JVal) :=
  setField (c6entry hmac) "details" (.obj [("message", .str "originaL")])

/-! ## middleware/phiDetector.js — the replace/scan engine and the nine
patterns, for the sanitize round-trip (C7) -/

/-! ### Regular-expression core (content part of the scanner patterns)

The scanner's patterns all have the shape `\b CORE \b` where `CORE`
contains no further assertions: it is built from character classes,
literals, alternation, greedy option/repetition and greedy classes
starred.  `RE` is that assertion-free core language; matching is given
by `prefixMatches`, which returns the possible remainders in exactly
the JavaScript engine's backtracking preference order (greedy
quantifiers first, left alternative first). -/
inductive RE where
  | eps
  | cls (p : Char → Bool)
  | seq (a b : RE)
  | alt (a b : RE)
  | starCls (p : Char → Bool)

/-- Remainders of consuming a greedy `p*` (longest consumption
first). -/
def starAlts (p : Char → Bool) : List Char → List (List Char)
  | [] => [[]]
  | c :: cs => if p c then starAlts p cs ++ [c :: cs] else [c :: cs]

/-- All remainders after matching a prefix of `cs` against `re`, in
the engine's preference order. -/
def prefixMatches : RE → List Char → List (List Char)
  | .eps, cs => [cs]
  | .cls _, [] => []
  | .cls p, c :: cs => if p c then [cs] else []
  | .seq a b, cs => (prefixMatches a cs).flatMap (fun r => prefixMatches b r)
  | .alt a b, cs => prefixMatches a cs ++ prefixMatches b cs
  | .starCls p, cs => starAlts p cs

/-- Whole-list match. -/
def reMatch (re : RE) (v : List Char) : Bool :=
  (prefixMatches re v).any List.isEmpty

/-- Wordness of an optional character (start/end of text is
non-word). -/
def isWordO : Option Char → Bool
  | none => false
  | some c => isWordChar c

/-- The `\b` assertion between two neighbouring characters. -/
def boundaryB (a b : Option Char) : Bool := isWordO a != isWordO b

/-- Candidates at a position: consumed prefix and remainder, in engine
preference order. -/
def candAts (core : RE) (cs : List Char) : List (List Char × List Char) :=
  (prefixMatches core cs).map (fun r => (cs.take (cs.length - r.length), r))

/-- A candidate is accepted when it is nonempty and the trailing `\b`
holds after it. -/
def acceptCand (vr : List Char × List Char) : Bool :=
  !vr.1.isEmpty && boundaryB vr.1.getLast? vr.2.head?

/-- One engine step at a position: the leading `\b` must hold at the
position, then the first accepted candidate in preference order is the
JavaScript match (with its remainder). -/
def findEnd (core : RE) (prev : Option Char) (cs : List Char) :
    Option (List Char × List Char) :=
  if boundaryB prev cs.head? then (candAts core cs).find? acceptCand else none

/-- One structural unit of a replace pass: a scanned character where no
match started, a found-but-validator-rejected match kept verbatim
(`String.replace` still advances past it), or a found match replaced by
its mask. -/
inductive PassBlock where
  | live (c : Char)
  | kept (v : List Char)
  | masked (v : List Char) (out : List Char)

/-- Output text of a block. -/
def renderB : PassBlock → List Char
  | .live c => [c]
  | .kept v => v
  | .masked _ out => out

/-- Input (original) text of a block. -/
def origB : PassBlock → List Char
  | .live c => [c]
  | .kept v => v
  | .masked v _ => v

/-- Output text of a pass. -/
def render (bs : List PassBlock) : List Char := bs.flatMap renderB

/-- Input text of a pass. -/
def origOf (bs : List PassBlock) : List Char := bs.flatMap origB

/-- The walk of one `String.replace(regex, fn)` pass: matching always
happens against the ORIGINAL characters (`prev` is the original
predecessor of the current position), the replacement only affects the
output.  Fuel is structural; `cs.length` suffices. -/
def passGo (core : RE) (validator : List Char → Bool)
    (maskOf : List Char → List Char) :
    Nat → Option Char → List Char → List PassBlock
  | 0, _, cs => cs.map .live
  | _ + 1, _, [] => []
  | fuel + 1, prev, c :: cs =>
    match findEnd core prev (c :: cs) with
    | none => .live c :: passGo core validator maskOf fuel (some c) cs
    | some (v, r) =>
      if validator v then
        .masked v (maskOf v) :: passGo core validator maskOf fuel v.getLast? r
      else
        .kept v :: passGo core validator maskOf fuel v.getLast? r

/-- A whole pass on a text. -/
def runPass (core : RE) (validator : List Char → Bool)
    (maskOf : List Char → List Char) (cs : List Char) : List Char :=
  render (passGo core validator maskOf (cs.length + 1) none cs)

/-- Well-formed block lists: exactly the traces the walk can produce,
carrying each block's engine fact against the original text. -/
inductive WfBlocks (core : RE) (validator : List Char → Bool)
    (maskOf : List Char → List Char) : Option Char → List PassBlock → Prop
  | nil (lc : Option Char) : WfBlocks core validator maskOf lc []
  | live (lc : Option Char) (c : Char) (bs : List PassBlock) :
      findEnd core lc (c :: origOf bs) = none →
      WfBlocks core validator maskOf (some c) bs →
      WfBlocks core validator maskOf lc (.live c :: bs)
  | kept (lc : Option Char) (v : List Char) (bs : List PassBlock) :
      findEnd core lc (v ++ origOf bs) = some (v, origOf bs) →
      validator v = false →
      WfBlocks core validator maskOf v.getLast? bs →
      WfBlocks core validator maskOf lc (.kept v :: bs)
  | masked (lc : Option Char) (v : List Char) (bs : List PassBlock) :
      findEnd core lc (v ++ origOf bs) = some (v, origOf bs) →
      validator v = true →
      WfBlocks core validator maskOf v.getLast? bs →
      WfBlocks core validator maskOf lc (.masked v (maskOf v) :: bs)

/-- Character context to the left of a span: last of the intervening
text, or the ambient context when it is empty. -/
def lastCtx (lc : Option Char) (u : List Char) : Option Char :=
  match u.getLast? with
  | some c => some c
  | none => lc

/-- Characters some class of the expression can consume. -/
def reCanUse : RE → Char → Bool
  | .eps, _ => false
  | .cls p, c => p c
  | .seq a b, c => reCanUse a c || reCanUse b c
  | .alt a b, c => reCanUse a c || reCanUse b c
  | .starCls p, c => p c

/-- Characters that can begin a match. -/
def reFirstCanUse : RE → Char → Bool
  | .eps, _ => false
  | .cls p, c => p c
  | .seq a b, c => reFirstCanUse a c || (reMatch a [] && reFirstCanUse b c)
  | .alt a b, c => reFirstCanUse a c || reFirstCanUse b c
  | .starCls p, c => p c

/-- Safety of a pattern against the content of a replacement mask: the
mask is nonempty, its edge characters are non-word and unconsumable by
the pattern, and no bounded match of the pattern sits strictly inside
it. -/
structure MaskSafe (p : RE) (m : List Char) : Prop where
  ne : m ≠ []
  headNonWord : isWordO m.head? = false
  lastNonWord : isWordO m.getLast? = false
  headNoUse : ∀ c, m.head? = some c → reCanUse p c = false
  lastNoUse : ∀ c, m.getLast? = some c → reCanUse p c = false
  interior : ∀ u1 v1 w1, m = u1 ++ v1 ++ w1 → u1 ≠ [] → v1 ≠ [] → w1 ≠ [] →
    reMatch p v1 = true → boundaryB u1.getLast? v1.head? = true →
    boundaryB v1.getLast? w1.head? = true → False

/-- Exchange the common tail `Z2` (of length `n`) of a remainder list
for `Z1`, dropping remainders too short to carry the tail. -/
def swapTail {α : Type} (n : Nat) (Z1 : List α) (l : List (List α)) :
    List (List α) :=
  l.filterMap (fun r => if n ≤ r.length then some (r.take (r.length - n) ++ Z1)
    else none)

/-- Replaced-block detector. -/
def isMaskedB : PassBlock → Bool
  | .masked _ _ => true
  | _ => false

/-- A pass trace with no replacement: the pass found nothing to
validate and replace, i.e. a scan of the text reports no finding. -/
def noMasked (bs : List PassBlock) : Bool := !(bs.any isMaskedB)

/-! ### The scanner's nine patterns (phiDetector.js initializePatterns),
their validators, the two masking modes, and the pass pipeline. -/

/-- `\d`. -/
def digitC (c : Char) : Bool := '0' ≤ c && c ≤ '9'

/-- `[A-Za-z]`. -/
def isAlphaC (c : Char) : Bool := ('A' ≤ c && c ≤ 'Z') || ('a' ≤ c && c ≤ 'z')

/-- JavaScript `\s`. -/
def isSpaceC (c : Char) : Bool :=
  c == ' ' || c == '\t' || c == '\n' || c == '\r' || c == '\x0b' || c == '\x0c' ||
  c == ' ' || c == ' ' || (' ' ≤ c && c ≤ ' ') ||
  c == ' ' || c == ' ' || c == ' ' || c == ' ' ||
  c == '　' || c == '﻿'

/-- Lower-casing for the `i` flag. -/
def lowC (c : Char) : Char :=
  if 'A' ≤ c && c ≤ 'Z' then Char.ofNat (c.toNat + 32) else c

/-- A literal character under the `i` flag. -/
def chCI (a : Char) : RE := .cls (fun c => lowC c == lowC a)

/-- An exact literal character. -/
def chE (a : Char) : RE := .cls (fun c => c == a)

/-- A case-insensitive literal word. -/
def strCI : List Char → RE
  | [] => .eps
  | c :: cs => .seq (chCI c) (strCI cs)

/-- Greedy `x?`. -/
def optRE (x : RE) : RE := .alt x .eps

/-- `x{n}`. -/
def powRE (x : RE) : Nat → RE
  | 0 => .eps
  | n + 1 => .seq x (powRE x n)

/-- Greedy `x{0,n}`. -/
def optChain (x : RE) : Nat → RE
  | 0 => .eps
  | n + 1 => .alt (.seq x (optChain x n)) .eps

/-- Greedy `x{lo,lo+k}`. -/
def repRange (x : RE) (lo k : Nat) : RE := .seq (powRE x lo) (optChain x k)

/-- Greedy `[p]+`. -/
def plusRE (p : Char → Bool) : RE := .seq (.cls p) (.starCls p)

/-- `[\w\d-]`. -/
def wdDash (c : Char) : Bool := isWordChar c || c == '-'

/-- `[-.\s]`. -/
def sepPh (c : Char) : Bool := c == '-' || c == '.' || isSpaceC c

/-- `[\/\-]`. -/
def slashDash (c : Char) : Bool := c == '/' || c == '-'

/-- `[-\s]`. -/
def sepCC (c : Char) : Bool := c == '-' || isSpaceC c

/-- `[A-Za-z0-9._%+-]`. -/
def emailLocalC (c : Char) : Bool :=
  isAlphaC c || digitC c || c == '.' || c == '_' || c == '%' || c == '+' ||
    c == '-'

/-- `[A-Za-z0-9.-]`. -/
def emailDomC (c : Char) : Bool :=
  isAlphaC c || digitC c || c == '.' || c == '-'

/-- `[A-Z|a-z]` (the `|` is a literal member of the class). -/
def emailTldC (c : Char) : Bool :=
  ('A' ≤ c && c ≤ 'Z') || c == '|' || ('a' ≤ c && c ≤ 'z')

/-- `[A-Za-z\s]`. -/
def addrC (c : Char) : Bool := isAlphaC c || isSpaceC c

/-- ssn : `\b(?:\d{3}-?\d{2}-?\d{4})\b`. -/
def ssnRE : RE :=
  .seq (powRE (.cls digitC) 3) (.seq (optRE (chE '-'))
    (.seq (powRE (.cls digitC) 2) (.seq (optRE (chE '-'))
      (powRE (.cls digitC) 4))))

/-- mrn keyword : `MRN|mrn|medical\s*record\s*(?:number|#)?` under `i`. -/
def mrnKw : RE :=
  .alt (strCI ['M', 'R', 'N'])
    (.alt (strCI ['m', 'r', 'n'])
      (.seq (strCI ['m', 'e', 'd', 'i', 'c', 'a', 'l'])
        (.seq (.starCls isSpaceC)
          (.seq (strCI ['r', 'e', 'c', 'o', 'r', 'd'])
            (.seq (.starCls isSpaceC)
              (optRE (.alt (strCI ['n', 'u', 'm', 'b', 'e', 'r'])
                (chCI '#'))))))))

/-- mrn : `\b(?:MRN|mrn|medical\s*record\s*(?:number|#)?)\s*:?\s*[\w\d-]{6,20}\b`, flags `gi`. -/
def mrnRE : RE :=
  .seq mrnKw (.seq (.starCls isSpaceC) (.seq (optRE (chE ':'))
    (.seq (.starCls isSpaceC) (repRange (.cls wdDash) 6 14))))

/-- phone : `\b(?:\+?1[-.\s]?)?\(?([0-9]{3})\)?[-.\s]?([0-9]{3})[-.\s]?([0-9]{4})\b`. -/
def phoneRE : RE :=
  .seq (optRE (.seq (optRE (chE '+')) (.seq (chE '1') (optRE (.cls sepPh)))))
    (.seq (optRE (chE '(')) (.seq (powRE (.cls digitC) 3)
      (.seq (optRE (chE ')')) (.seq (optRE (.cls sepPh))
        (.seq (powRE (.cls digitC) 3) (.seq (optRE (.cls sepPh))
          (powRE (.cls digitC) 4)))))))

/-- email : `\b[A-Za-z0-9._%+-]+@[A-Za-z0-9.-]+\.[A-Z|a-z]{2,}\b`. -/
def emailRE : RE :=
  .seq (plusRE emailLocalC) (.seq (chE '@') (.seq (plusRE emailDomC)
    (.seq (chE '.') (.seq (.cls emailTldC)
      (.seq (.cls emailTldC) (.starCls emailTldC))))))

/-- dob keyword : `dob|date\s*of\s*birth|born|birthday` under `i`. -/
def dobKw : RE :=
  .alt (strCI ['d', 'o', 'b'])
    (.alt (.seq (strCI ['d', 'a', 't', 'e'])
        (.seq (.starCls isSpaceC) (.seq (strCI ['o', 'f'])
          (.seq (.starCls isSpaceC) (strCI ['b', 'i', 'r', 't', 'h'])))))
      (.alt (strCI ['b', 'o', 'r', 'n'])
        (strCI ['b', 'i', 'r', 't', 'h', 'd', 'a', 'y'])))

/-- dob date form `\d{1,2}[\/\-]\d{1,2}[\/\-]\d{2,4}`. -/
def dobDateA : RE :=
  .seq (repRange (.cls digitC) 1 1) (.seq (.cls slashDash)
    (.seq (repRange (.cls digitC) 1 1) (.seq (.cls slashDash)
      (repRange (.cls digitC) 2 2))))

/-- dob date form `\d{2,4}[\/\-]\d{1,2}[\/\-]\d{1,2}`. -/
def dobDateB : RE :=
  .seq (repRange (.cls digitC) 2 2) (.seq (.cls slashDash)
    (.seq (repRange (.cls digitC) 1 1) (.seq (.cls slashDash)
      (repRange (.cls digitC) 1 1))))

/-- dob : `\b(?:dob|date\s*of\s*birth|born|birthday)\s*:?\s*(?:...)\b`, flags `gi`. -/
def dobRE : RE :=
  .seq dobKw (.seq (.starCls isSpaceC) (.seq (optRE (chE ':'))
    (.seq (.starCls isSpaceC) (.alt dobDateA dobDateB))))

/-- address street suffixes, in the pattern's order, under `i`. -/
def addrSuffix : RE :=
  .alt (strCI ['S', 't', 'r', 'e', 'e', 't'])
    (.alt (strCI ['S', 't'])
      (.alt (strCI ['A', 'v', 'e', 'n', 'u', 'e'])
        (.alt (strCI ['A', 'v', 'e'])
          (.alt (strCI ['R', 'o', 'a', 'd'])
            (.alt (strCI ['R', 'd'])
              (.alt (strCI ['D', 'r', 'i', 'v', 'e'])
                (.alt (strCI ['D', 'r'])
                  (.alt (strCI ['L', 'a', 'n', 'e'])
                    (.alt (strCI ['L', 'n'])
                      (.alt (strCI ['B', 'o', 'u', 'l', 'e', 'v', 'a', 'r', 'd'])
                        (strCI ['B', 'l', 'v', 'd'])))))))))))

/-- address : `\b\d+\s+[A-Za-z\s]+(?:Street|...|Blvd)\b`, flags `gi`. -/
def addressRE : RE :=
  .seq (plusRE digitC) (.seq (plusRE isSpaceC) (.seq (plusRE addrC) addrSuffix))

/-- insurance : `\b(?:insurance|member|policy)\s*(?:id|number|#)?\s*:?\s*[\w\d-]{8,20}\b`, flags `gi`. -/
def insuranceRE : RE :=
  .seq (.alt (strCI ['i', 'n', 's', 'u', 'r', 'a', 'n', 'c', 'e'])
      (.alt (strCI ['m', 'e', 'm', 'b', 'e', 'r'])
        (strCI ['p', 'o', 'l', 'i', 'c', 'y'])))
    (.seq (.starCls isSpaceC)
      (.seq (optRE (.alt (strCI ['i', 'd'])
          (.alt (strCI ['n', 'u', 'm', 'b', 'e', 'r']) (chCI '#'))))
        (.seq (.starCls isSpaceC) (.seq (optRE (chE ':'))
          (.seq (.starCls isSpaceC) (repRange (.cls wdDash) 8 12))))))

/-- patientId : `\b(?:patient|pat)\s*(?:id|number|#)\s*:?\s*[\w\d-]{5,15}\b`, flags `gi`. -/
def patientIdRE : RE :=
  .seq (.alt (strCI ['p', 'a', 't', 'i', 'e', 'n', 't'])
      (strCI ['p', 'a', 't']))
    (.seq (.starCls isSpaceC)
      (.seq (.alt (strCI ['i', 'd'])
          (.alt (strCI ['n', 'u', 'm', 'b', 'e', 'r']) (chCI '#')))
        (.seq (.starCls isSpaceC) (.seq (optRE (chE ':'))
          (.seq (.starCls isSpaceC) (repRange (.cls wdDash) 5 10))))))

/-- creditCard group `\d{4}[-\s]?`. -/
def ccGrp : RE := .seq (powRE (.cls digitC) 4) (optRE (.cls sepCC))

/-- creditCard : `\b(?:\d{4}[-\s]?){3}\d{4}\b` (the final `\d{4}` split so
that the expression visibly ends in a digit class). -/
def ccRE : RE :=
  .seq (.seq (powRE ccGrp 3) (powRE (.cls digitC) 3)) (.cls digitC)

/-- Luhn doubling step. -/
def luhnDouble (d : Nat) : Nat := if 9 < 2 * d then 2 * d - 9 else 2 * d

/-- Luhn sum, starting from the rightmost digit with the flag false. -/
def luhnAux : List Nat → Bool → Nat
  | [], _ => 0
  | d :: ds, ev => (if ev then luhnDouble d else d) + luhnAux ds (!ev)

/-- isValidCreditCard : strip non-digits, check 13..19 digits, Luhn. -/
def isValidCreditCard (v : List Char) : Bool :=
  let digits := (v.filter digitC).map (fun c => c.toNat - ('0').toNat)
  if digits.length < 13 || 19 < digits.length then false
  else luhnAux digits.reverse false % 10 == 0

/-- Validator of a pattern without one : every match passes. -/
def trueV (_ : List Char) : Bool := true

/-- preserveLength mode : maskChar `*` repeated to the match length. -/
def starMask (v : List Char) : List Char := List.replicate v.length '*'

/-- The fixed redactionText `[REDACTED-PHI]`. -/
def redactChars : List Char :=
  ['[', 'R', 'E', 'D', 'A', 'C', 'T', 'E', 'D', '-', 'P', 'H', 'I', ']']

/-- Non-preserveLength mode : the fixed redaction token. -/
def redactMask (_ : List Char) : List Char := redactChars

/-- The replacement of a match in either masking mode. -/
def maskFn : Bool → (List Char → List Char)
  | true => starMask
  | false => redactMask

/-- The scanner's patterns with their validators, in insertion order. -/
def phiPatterns : List (RE × (List Char → Bool)) :=
  [(ssnRE, trueV), (mrnRE, trueV), (phoneRE, trueV), (emailRE, trueV),
   (dobRE, trueV), (addressRE, trueV), (insuranceRE, trueV),
   (patientIdRE, trueV), (ccRE, isValidCreditCard)]

/-- sanitizeText : one sequential replace pass per pattern. -/
def sanitizePHI (mk : List Char → List Char) (t : List Char) : List Char :=
  phiPatterns.foldl (fun acc pv => runPass pv.1 pv.2 mk acc) t

/-- scanForPHI reports a finding : some pattern's engine walk contains a
validator-passing match. -/
def scanFindsPHI (t : List Char) : Bool :=
  phiPatterns.any (fun pv =>
    !(noMasked (passGo pv.1 pv.2 (fun v => v) (t.length + 1) none t)))

/-- Bounded check that no accepted span of `p` lies strictly inside
`m`. -/
def noInterior (p : RE) (m : List Char) : Bool :=
  (List.range m.length).all (fun i =>
    (List.range m.length).all (fun j =>
      ((m.drop (i + 1)).take (j + 1)).isEmpty ||
      ((m.drop (i + 1)).drop (j + 1)).isEmpty ||
        !(reMatch p ((m.drop (i + 1)).take (j + 1)) &&
          boundaryB (m.take (i + 1)).getLast? ((m.drop (i + 1)).take (j + 1)).head? &&
          boundaryB ((m.drop (i + 1)).take (j + 1)).getLast?
            ((m.drop (i + 1)).drop (j + 1)).head?)))

/-- An accepted span of a pattern somewhere in a text, with the start
of the text as ambient left context. -/
def SpanCtx (p : RE) (t : List Char) : Prop :=
  ∃ u v w, u ++ v ++ w = t ∧ v ≠ [] ∧ reMatch p v = true ∧
    boundaryB (lastCtx none u) v.head? = true ∧
    boundaryB v.getLast? w.head? = true

/-! ## Theorems -/

/-- C9: issue-key validation rejects `AB-0` (zero numeric suffix),
accepts `AB-1` and `PROJ2-45`, and rejects the lowercase `ab-1`. -/
theorem c9_theorem :
    (validateIssueKey "AB-0").isValid = false ∧
    (validateIssueKey "AB-1").isValid = true ∧
    (validateIssueKey "PROJ2-45").isValid = true ∧
    (validateIssueKey "ab-1").isValid = false := by
  decide

mutual
/-- `removePHIFields` establishes the key-based redaction invariant on
any value. -/
theorem auditRedacted_removePHI :
    (v : JVal) → auditRedacted (removePHIFields v) = true
  | .null => rfl
  | .bool _ => rfl
  | .num _ => rfl
  | .str _ => rfl
  | .arr elems => auditRedactedArr_removePHI elems
  | .obj fields => auditRedactedObj_removePHI fields

/-- the invariant on sanitized object fields. -/
theorem auditRedactedObj_removePHI :
    (l : List (String × JVal)) →
      auditRedactedObj (removePHIFieldsObj l) = true
  | [] => rfl
  | (k, v) :: rest => by
    have hv := auditRedacted_removePHI v
    have hrest := auditRedactedObj_removePHI rest
    by_cases h : keyMatchesPHI k <;>
      simp [removePHIFieldsObj, auditRedactedObj, h, isRedactMarker, hv, hrest]

/-- the invariant on sanitized array elements. -/
theorem auditRedactedArr_removePHI :
    (l : List JVal) → auditRedactedArr (removePHIFieldsArr l) = true
  | [] => rfl
  | v :: rest => by
    have hv := auditRedacted_removePHI v
    have hrest := auditRedactedArr_removePHI rest
    simp [removePHIFieldsArr, auditRedactedArr, hv, hrest]
end

/-- C3 counterexample: the audit sanitizer redacts by key name only, so
the detail `\x7b note: "123-45-6789" \x7d` passes through unchanged even
though its value matches the scanner's government-id (SSN) pattern. -/
theorem c3_counterexample :
    sanitizeForAudit (.obj [("note", .str "123-45-6789")]) =
      .obj [("note", .str "123-45-6789")] ∧
    hasSSN "123-45-6789" = true := by
  have h : keyMatchesPHI "note" = false := by decide
  refine ⟨?_, by decide⟩
  simp [sanitizeForAudit, isFalsyJ, removePHIFields, removePHIFieldsObj, h]

/-- C3 (amended): the sanitizer run before every audit write enforces a
key-name-based invariant — every value stored under a key whose
lowercased name contains one of the configured PHI field names is the
fixed redaction marker; values under other keys are written unchanged
and may still match the content scanner's patterns. -/
theorem c3_theorem : ∀ d : JVal, auditRedacted (sanitizeForAudit d) = true := by
  intro d
  by_cases h : isFalsyJ d <;>
    simp [sanitizeForAudit, h, auditRedacted, auditRedacted_removePHI d]

/-- After `delete`, lookup of the deleted id misses. -/
theorem sessionsGet_delete (st : SMState) (sid : String) :
    sessionsGet (sessionsDelete st sid) sid = none := by
  have h : List.find? (fun p : String × Session => p.1 == sid)
      ((sessionsDelete st sid).activeSessions) = none := by
    rw [List.find?_eq_none]
    intro p hp
    have hkeep := (List.mem_filter.mp hp).2
    simpa [bne] using hkeep
  simp [sessionsGet, h]

/-- C8: terminating an already-terminated session id is a no-op — the
function is total (raises nothing), returns the registry unchanged and
emits no second SESSION_TERMINATED audit event. -/
theorem c8_theorem : ∀ (st : SMState) (sid r1 r2 : String),
    terminateSession (terminateSession st sid r1).1 sid r2 =
      ((terminateSession st sid r1).1, []) := by
  intro st sid r1 r2
  rcases hget : sessionsGet st sid with _ | s
  · simp [terminateSession, hget]
  · simp [terminateSession, hget, sessionsGet_delete]

/-- C6: the integrity digest of a stored audit entry is recomputable
from the stored fields minus the digest — but because
`calculateIntegrityHash` passes `Object.keys(entry).sort()` as a
replacer ARRAY to `JSON.stringify`, nested detail keys are dropped from
the serialized form, so changing a byte of a nested detail value
(`original` → `originaL`) leaves the recomputed digest equal to the
stored one for every choice of HMAC: the tampering is undetectable,
contradicting the code's stated purpose of tamper detection. -/
theorem c6_theorem : ∀ hmac : String → String,
    getField (c6tampered hmac) "details" =
      some (.obj [("message", .str "originaL")]) ∧
    getField (c6entry hmac) "details" =
      some (.obj [("message", .str "original")]) ∧
    getField (c6entry hmac) "integrity" =
      some (.str (calculateIntegrityHash hmac (removeField (c6entry hmac) "integrity"))) ∧
    calculateIntegrityHash hmac (removeField (c6tampered hmac) "integrity") =
      calculateIntegrityHash hmac (removeField (c6entry hmac) "integrity") := by
  intro hmac
  have h1 : removeField (c6tampered hmac) "integrity" =
      setField c6base "details" (.obj [("message", .str "originaL")]) := rfl
  have h2 : removeField (c6entry hmac) "integrity" = c6base := rfl
  refine ⟨rfl, rfl, ?_, ?_⟩
  · rw [h2]; rfl
  · rw [h1, h2]
    simp only [calculateIntegrityHash]
    refine congrArg hmac ?_
    simp [stringifyWith, stringifyPairs, stringifyElems, c6base, c6data, spreadMerge,
      setField, sortKeys, insertSorted, jsonQuote, jsonEscapeChar, commaJoin]

/-- C1 counterexample: a session created at time 0 whose request at
minute 10 passed validation (refreshing `lastActivity`) satisfies, at
minute 20, every condition of the claimed invariant — active, idle
elapsed 10 min ≤ 15 min, absolute elapsed 20 min ≤ 60 min, same
address — yet validation of the request carrying the session's token is
rejected, because the JWT `exp` claim was fixed at minute 15 at
issuance: an extra rejection condition beyond the four claimed ones. -/
theorem c1_counterexample :
    validateSession c1created.2 (some c1created.1.token) "10.0.0.7" 600000 =
      .next c1state "sid-1" ∧
    specSessionValid c1state "sid-1" "10.0.0.7" 1200000 = true ∧
    validateSession c1state (some c1created.1.token) "10.0.0.7" 1200000 =
      .reject (handleInvalidSession "TOKEN_EXPIRED") c1state := by
  refine ⟨by decide, by decide, by decide⟩

/-- C2 counterexample: two rejection paths of the request gate answer
with different client-visible bodies — the `code` field names the
specific failed check (`NO_TOKEN` vs `TOKEN_EXPIRED`), so the response
does reveal which check failed. -/
theorem c2_counterexample :
    validateSession c1state none "10.0.0.7" 1200000 =
      .reject (handleInvalidSession "NO_TOKEN") c1state ∧
    validateSession c1state (some c1created.1.token) "10.0.0.7" 1200000 =
      .reject (handleInvalidSession "TOKEN_EXPIRED") c1state ∧
    handleInvalidSession "NO_TOKEN" ≠ handleInvalidSession "TOKEN_EXPIRED" := by
  refine ⟨by decide, by decide, by decide⟩

/-- C1 (amended): request validation succeeds iff a token is presented
whose signature verifies and whose `exp` claim — fixed at issuance as
`(createdAt + idleTimeout) / 1000` and never refreshed by activity —
still lies in the future, the session is registered and active, the
idle elapsed time is at most the idle timeout, the absolute elapsed
time is at most the absolute timeout, and the requester's address
equals the bound address.  Token absence, a bad signature and token
expiry are the further rejection conditions beyond the four claimed
ones. -/
theorem c1_theorem (st : SMState) (token? : Option Token) (ip : String) (now : Nat) :
    (∃ st' sid, validateSession st token? ip now = .next st' sid) ↔
    (∃ t s, token? = some t ∧ t.sigValid = true ∧ now / 1000 < t.exp ∧
      sessionsGet st t.sessionId = some s ∧ s.isActive = true ∧
      now - s.lastActivity ≤ st.sessionTimeout ∧
      now - s.createdAt ≤ st.maxSessionTimeout ∧ s.ipAddress = ip) := by
  constructor
  · rintro ⟨st', sid, h⟩
    cases token? with
    | none => simp [validateSession] at h
    | some t =>
      simp only [validateSession] at h
      by_cases hsig : t.sigValid
      · simp only [hsig, Bool.not_true, Bool.false_eq_true, if_false] at h
        by_cases hexp : t.exp ≤ now / 1000
        · simp [hexp] at h
        · simp only [hexp, if_false] at h
          rcases hget : sessionsGet st t.sessionId with _ | s
          · rw [hget] at h; simp at h
          · rw [hget] at h
            by_cases hact : s.isActive
            · simp only [hact, Bool.not_true, Bool.false_eq_true, if_false] at h
              by_cases hidle : now - s.lastActivity > st.sessionTimeout
              · simp [hidle] at h
              · simp only [hidle, if_false] at h
                by_cases habs : now - s.createdAt > st.maxSessionTimeout
                · simp [habs] at h
                · simp only [habs, if_false] at h
                  by_cases hip : s.ipAddress = ip
                  · exact ⟨t, s, rfl, hsig, Nat.lt_of_not_le hexp, hget, hact,
                      Nat.le_of_not_lt hidle, Nat.le_of_not_lt habs, hip⟩
                  · simp [bne, hip] at h
            · simp [hact] at h
      · simp [hsig] at h
  · rintro ⟨t, s, rfl, hsig, hexp, hget, hact, hidle, habs, hip⟩
    refine ⟨touchSession st t.sessionId now, t.sessionId, ?_⟩
    simp [validateSession, hsig, Nat.not_le.mpr hexp, hget, hact,
      Nat.not_lt.mpr hidle, Nat.not_lt.mpr habs, hip, bne]

/-- C2 (amended): every rejection of the request gate is uniform in its
status (401), `error` field (`Authentication required`) and
`requiresLogin` flag, but the body's `code` field identifies the
specific failed check to the client. -/
theorem c2_theorem : ∀ (st : SMState) (token? : Option Token) (ip : String)
    (now : Nat) (resp : ErrorResponse) (st' : SMState),
    validateSession st token? ip now = .reject resp st' →
    resp.status = 401 ∧ resp.error = "Authentication required" ∧
      resp.requiresLogin = true := by
  intro st token? ip now resp st' h
  cases token? with
  | none =>
    simp only [validateSession] at h
    cases h
    simp [handleInvalidSession]
  | some t =>
    simp only [validateSession] at h
    by_cases hsig : t.sigValid
    · simp only [hsig, Bool.not_true, Bool.false_eq_true, if_false] at h
      by_cases hexp : t.exp ≤ now / 1000
      · rw [if_pos hexp] at h
        cases h
        simp [handleInvalidSession]
      · rw [if_neg hexp] at h
        rcases hget : sessionsGet st t.sessionId with _ | s
        · rw [hget] at h
          cases h
          simp [handleInvalidSession]
        · rw [hget] at h
          by_cases hact : s.isActive
          · simp only [hact, Bool.not_true, Bool.false_eq_true, if_false] at h
            by_cases hidle : now - s.lastActivity > st.sessionTimeout
            · rw [if_pos hidle] at h
              cases h
              simp [handleInvalidSession]
            · rw [if_neg hidle] at h
              by_cases habs : now - s.createdAt > st.maxSessionTimeout
              · rw [if_pos habs] at h
                cases h
                simp [handleInvalidSession]
              · rw [if_neg habs] at h
                by_cases hip : s.ipAddress = ip
                · simp [hip, bne] at h
                · rw [if_pos (by simp [bne, hip])] at h
                  cases h
                  simp [handleInvalidSession]
          · simp at hact
            simp only [hact, Bool.not_false, if_true] at h
            cases h
            simp [handleInvalidSession]
    · simp at hsig
      simp only [hsig, Bool.not_false, if_true] at h
      cases h
      simp [handleInvalidSession]

/-- Witness for C2 (amended) at the missing-token rejection. -/
theorem c2_theorem_witness :
    (handleInvalidSession "NO_TOKEN").status = 401 ∧
    (handleInvalidSession "NO_TOKEN").error = "Authentication required" ∧
    (handleInvalidSession "NO_TOKEN").requiresLogin = true :=
  c2_theorem smInit none "10.0.0.7" 0 (handleInvalidSession "NO_TOKEN") smInit rfl

/-- Characterization of a successful `authenticateUser` run: the
looked-up user passed all checks, the returned record is the updated
one, and the store holds the update. -/
theorem authenticateUser_success (cmpf : String → String → Bool)
    (users : List User) (uname pw : String) (now : Nat) (info : User) (must : Bool)
    (h : (authenticateUser cmpf users uname pw now).result = .success info must) :
    ∃ user, findUser users uname = some user ∧
      info = handleSuccessfulLogin user now ∧
      (authenticateUser cmpf users uname pw now).users =
        updateUserById users user.id (fun v => handleSuccessfulLogin v now) := by
  unfold authenticateUser at *
  rcases hfind : findUser users uname with _ | user
  · rw [hfind] at h
    simp at h
  · rw [hfind] at h
    dsimp only at h ⊢
    by_cases hlock : (match user.lockedUntil with
        | some t => decide (now < t)
        | none => false) = true
    · rw [if_pos hlock] at h; simp at h
    · rw [if_neg hlock] at h ⊢
      by_cases hact : user.isActive
      · simp only [hact, Bool.not_true, Bool.false_eq_true, if_false] at h ⊢
        by_cases hcmp : cmpf pw user.password
        · simp only [hcmp, Bool.not_true, Bool.false_eq_true, if_false] at h ⊢
          simp only [AuthResult.success.injEq] at h
          exact ⟨user, rfl, h.1.symm, rfl⟩
        · simp at hcmp
          simp only [hcmp, Bool.not_false, if_true] at h
          simp at h
      · simp at hact
        simp only [hact, Bool.not_false, if_true] at h
        simp at h

/-- C4: any successful authentication stores the authenticated record
with the failed-attempt counter reset to 0 and the lock cleared (the
update applied is `handleSuccessfulLogin`, which always produces those
fields); and a failure that takes the counter from 4 to 5 — the 5th
consecutive failure — sets the lock expiry to `now + 15 minutes`, which
is at least 15 minutes after that moment. -/
theorem c4_theorem :
    (∀ (cmpf : String → String → Bool) (users : List User) (uname pw : String)
        (now : Nat) (info : User) (must : Bool),
      (authenticateUser cmpf users uname pw now).result = .success info must →
      ∀ v ∈ (authenticateUser cmpf users uname pw now).users,
        v.id = info.id → v.loginAttempts = 0 ∧ v.lockedUntil = none) ∧
    (∀ (u : User) (now : Nat),
      (handleSuccessfulLogin u now).loginAttempts = 0 ∧
      (handleSuccessfulLogin u now).lockedUntil = none) ∧
    (∀ (u : User) (now : Nat), u.loginAttempts = 4 →
      ∃ t, (handleFailedLogin u now).lockedUntil = some t ∧
        now + 15 * 60 * 1000 ≤ t) := by
  refine ⟨?_, fun u now => ⟨rfl, rfl⟩, ?_⟩
  · intro cmpf users uname pw now info must h v hv hid
    obtain ⟨user, hfind, hinfo, husers⟩ :=
      authenticateUser_success cmpf users uname pw now info must h
    rw [husers] at hv
    simp only [updateUserById] at hv
    obtain ⟨orig, _, rfl⟩ := List.mem_map.mp hv
    by_cases hb : (orig.id == user.id) = true
    · rw [if_pos hb]
      exact ⟨rfl, rfl⟩
    · rw [if_neg hb] at hid ⊢
      have hids : orig.id = user.id := by
        rw [hid, hinfo]; rfl
      exact absurd (beq_iff_eq.mpr hids) hb
  · intro u now h
    refine ⟨now + 15 * 60 * 1000, ?_, le_refl _⟩
    simp [handleFailedLogin, h]

/-- Witness for C4 at a concrete successful login and a concrete 5th
consecutive failure. -/
theorem c4_theorem_witness :
    ((handleSuccessfulLogin carolActive 777).loginAttempts = 0 ∧
      (handleSuccessfulLogin carolActive 777).lockedUntil = none) ∧
    (∃ t, (handleFailedLogin carolActive 777).lockedUntil = some t ∧
      777 + 15 * 60 * 1000 ≤ t) ∧
    ((handleSuccessfulLogin carolActive 777).loginAttempts = 0 ∧
      (handleSuccessfulLogin carolActive 777).lockedUntil = none) :=
  ⟨c4_theorem.2.1 carolActive 777,
   c4_theorem.2.2 carolActive 777 rfl,
   c4_theorem.1 bcryptEq [carolActive] "carol" "pw" 777
     (handleSuccessfulLogin carolActive 777) false (by decide)
     (handleSuccessfulLogin carolActive 777) (by decide) rfl⟩

/-- C5 counterexample: a deactivated existing account answers the 401
with reason `Account is disabled`, while a nonexistent account answers
`Invalid credentials` — the failure reason distinguishes existing from
nonexistent accounts. -/
theorem c5_counterexample :
    loginRoute bcryptEq [aliceDisabled] "alice" "wrong" 0 =
      ⟨401, some "Account is disabled"⟩ ∧
    loginRoute bcryptEq [aliceDisabled] "bob" "wrong" 0 =
      ⟨401, some "Invalid credentials"⟩ ∧
    (⟨401, some "Account is disabled"⟩ : LoginResponse) ≠
      ⟨401, some "Invalid credentials"⟩ := by
  decide

/-- C5 (amended): a nonexistent username and an existing, active,
unlocked username with a wrong secret both yield the same 401 reason
`Invalid credentials`; but locked or disabled accounts yield the
distinct reasons `Account temporarily locked` / `Account is disabled`,
which can reveal that the account exists. -/
theorem c5_theorem : ∀ (cmpf : String → String → Bool) (users : List User)
    (uname pw : String) (now : Nat),
    (findUser users uname = none →
      loginRoute cmpf users uname pw now = ⟨401, some "Invalid credentials"⟩) ∧
    (∀ u, findUser users uname = some u →
      (∀ t, u.lockedUntil = some t → t ≤ now) →
      u.isActive = true → cmpf pw u.password = false →
      loginRoute cmpf users uname pw now = ⟨401, some "Invalid credentials"⟩) := by
  intro cmpf users uname pw now
  constructor
  · intro hfind
    simp [loginRoute, authenticateUser, hfind]
  · intro u hfind hlock hact hcmp
    have hlockb : (match u.lockedUntil with
        | some t => decide (now < t)
        | none => false) = false := by
      rcases hu : u.lockedUntil with _ | t
      · rfl
      · simp [Nat.not_lt.mpr (hlock t hu)]
    simp [loginRoute, authenticateUser, hfind, hlockb, hact, hcmp]

/-- Witness for C5 (amended): the nonexistent-user and the
wrong-secret failures at concrete inputs. -/
theorem c5_theorem_witness :
    loginRoute bcryptEq [carolActive] "bob" "bad" 0 =
      ⟨401, some "Invalid credentials"⟩ ∧
    loginRoute bcryptEq [carolActive] "carol" "bad" 0 =
      ⟨401, some "Invalid credentials"⟩ :=
  ⟨(c5_theorem bcryptEq [carolActive] "bob" "bad" 0).1 rfl,
   (c5_theorem bcryptEq [carolActive] "carol" "bad" 0).2 carolActive rfl
     (fun t ht => nomatch ht) rfl (by decide)⟩

/-- C10 counterexample: with blocking disabled, a body containing
findings is sanitized in place; if the query scan then throws, the
catch path passes control downstream with the already-replaced body —
not the unmodified one. -/
theorem c10_counterexample :
    middleware (β := String) ⟨true, false, false⟩ "body" (.ok true) (.ok ())
        (.ok "sanitized") (.error ()) =
      ⟨.next "sanitized" true, true⟩ ∧
    ("sanitized" : String) ≠ "body" := by
  exact ⟨rfl, by decide⟩

/-- C10 (amended): whenever the middleware's catch handler runs, it
fails open — control always passes downstream, never a block response;
and in a blocking deployment the body handed downstream is exactly the
original one.  (Only in sanitize mode can a body already replaced by a
successful sanitization reach the handler after a later exception.) -/
theorem c10_theorem : ∀ {β : Type} (cfg : PHIConfig) (body0 : β)
    (sB : Except Unit Bool) (lv : Except Unit Unit) (san : Except Unit β)
    (sQ : Except Unit Bool),
    (middleware cfg body0 sB lv san sQ).caught = true →
    (∃ b ph, (middleware cfg body0 sB lv san sQ).res = .next b ph) ∧
    (cfg.blockOnDetection = true →
      (middleware cfg body0 sB lv san sQ).res = .next body0 false) := by
  intro β cfg body0 sB lv san sQ h
  rcases cfg with ⟨sm, lvb, bod⟩
  rcases sB with e | hasB
  · exact ⟨⟨body0, false, rfl⟩, fun _ => rfl⟩
  · cases hasB
    · rcases sQ with qe | hasQ
      · exact ⟨⟨body0, false, rfl⟩, fun _ => rfl⟩
      · exfalso
        cases hasQ <;> cases bod <;> simp [middleware] at h
    · cases lvb
      · cases bod
        · rcases san with se | b1
          · exact ⟨⟨body0, false, rfl⟩, fun hb => nomatch hb⟩
          · rcases sQ with qe | hasQ
            · exact ⟨⟨b1, true, rfl⟩, fun hb => nomatch hb⟩
            · exfalso; cases hasQ <;> simp [middleware] at h
        · exfalso; simp [middleware] at h
      · rcases lv with le | lu
        · exact ⟨⟨body0, false, rfl⟩, fun _ => rfl⟩
        · cases bod
          · rcases san with se | b1
            · exact ⟨⟨body0, false, rfl⟩, fun hb => nomatch hb⟩
            · rcases sQ with qe | hasQ
              · exact ⟨⟨b1, true, rfl⟩, fun hb => nomatch hb⟩
              · exfalso; cases hasQ <;> simp [middleware] at h
          · exfalso; simp [middleware] at h

/-- Witness for C10 (amended) at a blocking configuration whose body
scan throws. -/
theorem c10_theorem_witness :
    (∃ b ph, (middleware (β := String) ⟨true, true, true⟩ "orig" (.error ())
        (.ok ()) (.ok "s") (.ok false)).res = .next b ph) ∧
    ((⟨true, true, true⟩ : PHIConfig).blockOnDetection = true →
      (middleware (β := String) ⟨true, true, true⟩ "orig" (.error ())
        (.ok ()) (.ok "s") (.ok false)).res = .next "orig" false) :=
  c10_theorem ⟨true, true, true⟩ "orig" (.error ()) (.ok ()) (.ok "s")
    (.ok false) rfl


theorem reMatch_iff (re : RE) (v : List Char) :
    reMatch re v = true ↔ [] ∈ prefixMatches re v := by
  simp only [reMatch, List.any_eq_true]
  constructor
  · rintro ⟨r, hr, he⟩
    rwa [List.isEmpty_iff.mp he] at hr
  · intro h
    exact ⟨[], h, rfl⟩

theorem starAlts_mem (p : Char → Bool) (cs r : List Char) :
    r ∈ starAlts p cs ↔ ∃ v, v ++ r = cs ∧ v.all p = true := by
  induction cs generalizing r with
  | nil =>
    simp only [starAlts, List.mem_singleton]
    constructor
    · rintro rfl; exact ⟨[], rfl, rfl⟩
    · rintro ⟨v, hv, _⟩
      rcases List.append_eq_nil.mp hv with ⟨rfl, rfl⟩
      rfl
  | cons c cs ih =>
    by_cases hc : p c = true
    · simp only [starAlts, hc, if_true, List.mem_append, List.mem_singleton]
      constructor
      · rintro (hr | rfl)
        · obtain ⟨v, hv, hall⟩ := (ih _).mp hr
          exact ⟨c :: v, by simp [hv], by simp [hall, hc]⟩
        · exact ⟨[], rfl, rfl⟩
      · rintro ⟨v, hv, hall⟩
        rcases v with _ | ⟨d, v⟩
        · right
          simpa using hv
        · left
          simp only [List.cons_append, List.cons.injEq] at hv
          obtain ⟨rfl, hv⟩ := hv
          simp only [List.all_cons, Bool.and_eq_true] at hall
          exact (ih _).mpr ⟨v, hv, hall.2⟩
    · simp only [Bool.not_eq_true] at hc
      simp only [starAlts, hc, Bool.false_eq_true, if_false, List.mem_singleton]
      constructor
      · rintro rfl; exact ⟨[], rfl, rfl⟩
      · rintro ⟨v, hv, hall⟩
        rcases v with _ | ⟨d, v⟩
        · simpa using hv
        · simp only [List.cons_append, List.cons.injEq] at hv
          obtain ⟨rfl, _⟩ := hv
          simp only [List.all_cons, Bool.and_eq_true] at hall
          rw [hc] at hall
          exact absurd hall.1 (by simp)

/-- Characterization of `prefixMatches`: the remainders are exactly
the suffixes whose consumed prefix fully matches. -/
theorem prefixMatches_mem (re : RE) (cs r : List Char) :
    r ∈ prefixMatches re cs ↔ ∃ v, v ++ r = cs ∧ reMatch re v = true := by
  induction re generalizing cs r with
  | eps =>
    simp only [prefixMatches, List.mem_singleton]
    constructor
    · rintro rfl
      exact ⟨[], rfl, rfl⟩
    · rintro ⟨v, hv, hm⟩
      rw [reMatch_iff] at hm
      simp only [prefixMatches, List.mem_singleton] at hm
      subst hm
      simpa using hv
  | cls p =>
    rcases cs with _ | ⟨c, cs⟩
    · simp only [prefixMatches, List.not_mem_nil, false_iff]
      rintro ⟨v, hv, hm⟩
      rw [reMatch_iff] at hm
      rcases v with _ | ⟨d, v⟩
      · simp [prefixMatches] at hm
      · simp at hv
    · constructor
      · intro hr
        simp only [prefixMatches] at hr
        by_cases hc : p c
        · rw [if_pos hc] at hr
          simp only [List.mem_singleton] at hr
          subst hr
          refine ⟨[c], rfl, ?_⟩
          rw [reMatch_iff]
          simp [prefixMatches, hc]
        · rw [if_neg hc] at hr
          simp at hr
      · rintro ⟨v, hv, hm⟩
        rw [reMatch_iff] at hm
        rcases v with _ | ⟨d, v⟩
        · simp [prefixMatches] at hm
        · simp only [prefixMatches] at hm
          by_cases hd : p d
          · rw [if_pos hd] at hm
            simp only [List.mem_singleton] at hm
            subst hm
            simp only [List.cons_append, List.nil_append, List.cons.injEq] at hv
            obtain ⟨rfl, rfl⟩ := hv
            simp [prefixMatches, hd]
          · rw [if_neg hd] at hm
            simp at hm
  | seq a b iha ihb =>
    simp only [prefixMatches, List.mem_flatMap]
    constructor
    · rintro ⟨m, hm, hr⟩
      obtain ⟨u, hu, hmu⟩ := (iha _ _).mp hm
      obtain ⟨w, hw, hmw⟩ := (ihb _ _).mp hr
      refine ⟨u ++ w, by rw [List.append_assoc, hw, hu], ?_⟩
      rw [reMatch_iff]
      simp only [prefixMatches, List.mem_flatMap]
      refine ⟨w, ?_, (reMatch_iff _ _).mp hmw⟩
      exact (iha _ _).mpr ⟨u, rfl, hmu⟩
    · rintro ⟨v, hv, hm⟩
      rw [reMatch_iff] at hm
      simp only [prefixMatches, List.mem_flatMap] at hm
      obtain ⟨m, hma, hmb⟩ := hm
      obtain ⟨u, hu, hmu⟩ := (iha _ _).mp hma
      refine ⟨m ++ r, ?_, ?_⟩
      · refine (iha _ _).mpr ⟨u, ?_, hmu⟩
        rw [← List.append_assoc, hu, hv]
      · exact (ihb _ _).mpr ⟨m, rfl, (reMatch_iff _ _).mpr hmb⟩
  | alt a b iha ihb =>
    simp only [prefixMatches, List.mem_append]
    constructor
    · rintro (h | h)
      · obtain ⟨v, hv, hm⟩ := (iha _ _).mp h
        refine ⟨v, hv, ?_⟩
        rw [reMatch_iff] at hm ⊢
        simp only [prefixMatches, List.mem_append]
        exact Or.inl hm
      · obtain ⟨v, hv, hm⟩ := (ihb _ _).mp h
        refine ⟨v, hv, ?_⟩
        rw [reMatch_iff] at hm ⊢
        simp only [prefixMatches, List.mem_append]
        exact Or.inr hm
    · rintro ⟨v, hv, hm⟩
      rw [reMatch_iff] at hm
      simp only [prefixMatches, List.mem_append] at hm
      rcases hm with hm | hm
      · exact Or.inl ((iha _ _).mpr ⟨v, hv, (reMatch_iff _ _).mpr hm⟩)
      · exact Or.inr ((ihb _ _).mpr ⟨v, hv, (reMatch_iff _ _).mpr hm⟩)
  | starCls p =>
    simp only [prefixMatches]
    rw [starAlts_mem]
    constructor
    · rintro ⟨v, hv, hall⟩
      refine ⟨v, hv, ?_⟩
      rw [reMatch_iff]
      simp only [prefixMatches]
      rw [starAlts_mem]
      exact ⟨v, by simp, hall⟩
    · rintro ⟨v, hv, hm⟩
      rw [reMatch_iff] at hm
      simp only [prefixMatches] at hm
      rw [starAlts_mem] at hm
      obtain ⟨w, hw, hall⟩ := hm
      rw [List.append_nil] at hw
      subst hw
      exact ⟨w, hv, hall⟩

theorem candAts_mem (core : RE) (cs v r : List Char) :
    (v, r) ∈ candAts core cs ↔ v ++ r = cs ∧ reMatch core v = true := by
  simp only [candAts, List.mem_map]
  constructor
  · rintro ⟨rr, hrr, heq⟩
    have hr2 : rr = r := congrArg Prod.snd heq
    subst hr2
    have hv2 : cs.take (cs.length - rr.length) = v := congrArg Prod.fst heq
    obtain ⟨vv, hvv, hm⟩ := (prefixMatches_mem _ _ _).mp hrr
    have hlen : cs.length - rr.length = vv.length := by
      rw [← hvv]; simp
    have htake : cs.take (cs.length - rr.length) = vv := by
      rw [hlen, ← hvv, List.take_left]
    rw [htake] at hv2
    subst hv2
    exact ⟨hvv, hm⟩
  · rintro ⟨hv, hm⟩
    refine ⟨r, (prefixMatches_mem _ _ _).mpr ⟨v, hv, hm⟩, ?_⟩
    have hlen : cs.length - r.length = v.length := by
      rw [← hv]; simp
    rw [hlen, ← hv, List.take_left]

theorem findEnd_some (core : RE) (prev : Option Char) (cs v r : List Char)
    (h : findEnd core prev cs = some (v, r)) :
    v ++ r = cs ∧ v ≠ [] ∧ reMatch core v = true ∧
      boundaryB prev cs.head? = true ∧ boundaryB v.getLast? r.head? = true := by
  unfold findEnd at h
  by_cases hb : boundaryB prev cs.head? = true
  · rw [if_pos hb] at h
    have hmem := List.mem_of_find?_eq_some h
    have hacc := List.find?_some h
    obtain ⟨happ, hm⟩ := (candAts_mem _ _ _ _).mp hmem
    simp only [acceptCand, Bool.and_eq_true, Bool.not_eq_true'] at hacc
    refine ⟨happ, ?_, hm, hb, hacc.2⟩
    intro hnil
    rw [hnil] at hacc
    simp at hacc
  · rw [if_neg hb] at h
    exact absurd h (by simp)

theorem findEnd_none (core : RE) (prev : Option Char) (cs v r : List Char)
    (h : findEnd core prev cs = none) (happ : v ++ r = cs)
    (hm : reMatch core v = true) (hne : v ≠ [])
    (hlead : boundaryB prev cs.head? = true)
    (htrail : boundaryB v.getLast? r.head? = true) : False := by
  unfold findEnd at h
  rw [if_pos hlead] at h
  rw [List.find?_eq_none] at h
  refine h (v, r) ((candAts_mem _ _ _ _).mpr ⟨happ, hm⟩) ?_
  simp only [acceptCand, Bool.and_eq_true, Bool.not_eq_true']
  exact ⟨by simpa using hne, htrail⟩

theorem origOf_passGo (core : RE) (validator : List Char → Bool)
    (maskOf : List Char → List Char) :
    ∀ (fuel : Nat) (prev : Option Char) (cs : List Char),
      origOf (passGo core validator maskOf fuel prev cs) = cs := by
  intro fuel
  induction fuel with
  | zero =>
    intro prev cs
    simp only [passGo, origOf]
    induction cs with
    | nil => rfl
    | cons c cs ih => simp [origB, ih]
  | succ fuel ih =>
    intro prev cs
    rcases cs with _ | ⟨c, cs⟩
    · rfl
    · simp only [passGo]
      rcases hfe : findEnd core prev (c :: cs) with _ | ⟨v, r⟩
      · have hrec := ih (some c) cs
        simp only [origOf] at hrec ⊢
        simp [origB, hrec]
      · dsimp only
        obtain ⟨happ, hne, _, _, _⟩ := findEnd_some _ _ _ _ _ hfe
        have hrec := ih v.getLast? r
        simp only [origOf] at hrec
        by_cases hval : validator v = true
        · rw [if_pos hval]
          simp only [origOf, List.flatMap_cons, origB, hrec]
          exact happ
        · rw [if_neg hval]
          simp only [origOf, List.flatMap_cons, origB, hrec]
          exact happ

theorem wf_passGo (core : RE) (validator : List Char → Bool)
    (maskOf : List Char → List Char) :
    ∀ (fuel : Nat) (prev : Option Char) (cs : List Char),
      cs.length ≤ fuel →
      WfBlocks core validator maskOf prev (passGo core validator maskOf fuel prev cs) := by
  intro fuel
  induction fuel with
  | zero =>
    intro prev cs hlen
    have : cs = [] := List.length_eq_zero.mp (Nat.le_zero.mp hlen)
    subst this
    exact WfBlocks.nil prev
  | succ fuel ih =>
    intro prev cs hlen
    rcases cs with _ | ⟨c, cs⟩
    · exact WfBlocks.nil prev
    · simp only [passGo]
      rcases hfe : findEnd core prev (c :: cs) with _ | ⟨v, r⟩
      · refine WfBlocks.live prev c _ ?_ ?_
        · rwa [origOf_passGo]
        · exact ih (some c) cs (by simpa using Nat.le_of_succ_le_succ hlen)
      · dsimp only
        obtain ⟨happ, hne, hm, hlead, htrail⟩ := findEnd_some _ _ _ _ _ hfe
        have hrlen : r.length ≤ fuel := by
          have h1 : v.length + r.length = cs.length + 1 := by
            have := congrArg List.length happ
            simpa using this
          have h2 : 1 ≤ v.length := List.length_pos.mpr hne
          simp only [List.length_cons] at hlen
          omega
        by_cases hval : validator v = true
        · rw [if_pos hval]
          refine WfBlocks.masked prev v _ ?_ hval (ih v.getLast? r hrlen)
          rw [origOf_passGo, happ]
          exact hfe
        · rw [if_neg hval]
          refine WfBlocks.kept prev v _ ?_ (by simpa using hval) (ih v.getLast? r hrlen)
          rw [origOf_passGo, happ]
          exact hfe

theorem lastCtx_nil (lc : Option Char) : lastCtx lc [] = lc := rfl

theorem lastCtx_append (lc : Option Char) (a b : List Char) :
    lastCtx lc (a ++ b) = lastCtx (lastCtx lc a) b := by
  rcases hb : b.getLast? with _ | c
  · have hbnil : b = [] := List.getLast?_eq_none_iff.mp hb
    subst hbnil
    simp [lastCtx]
  · have hbne : b ≠ [] := by
      intro h; subst h; simp at hb
    have h1 : (a ++ b).getLast? = some c := by
      rw [List.getLast?_append_of_ne_nil a hbne]
      exact hb
    simp [lastCtx, h1, hb]

theorem lastCtx_cons (lc : Option Char) (c : Char) (u : List Char) :
    lastCtx lc (c :: u) = lastCtx (some c) u := by
  have : (c :: u) = [c] ++ u := rfl
  rw [this, lastCtx_append]
  rfl

theorem lastCtx_of_ne_nil (lc : Option Char) (u : List Char) (h : u ≠ []) :
    lastCtx lc u = u.getLast? := by
  rcases hu : u.getLast? with _ | c
  · exact absurd (by simpa using hu) h
  · simp [lastCtx, hu]

/-- Three-way split of a span inside a concatenation. -/
theorem span_split (A B u v w : List Char) (h : A ++ B = u ++ v ++ w) :
    (∃ w1, A = u ++ v ++ w1 ∧ w = w1 ++ B) ∨
    (∃ v1 v2, v = v1 ++ v2 ∧ v1 ≠ [] ∧ v2 ≠ [] ∧ A = u ++ v1 ∧ B = v2 ++ w) ∨
    (∃ u2, u = A ++ u2 ∧ B = u2 ++ v ++ w) := by
  rw [List.append_assoc] at h
  rcases List.append_eq_append_iff.mp h with ⟨k, hk1, hk2⟩ | ⟨k, hk1, hk2⟩
  · refine Or.inr (Or.inr ⟨k, hk1, ?_⟩)
    rw [hk2, List.append_assoc]
  · rcases List.append_eq_append_iff.mp hk2 with ⟨m, hm1, hm2⟩ | ⟨m, hm1, hm2⟩
    · left
      refine ⟨m, ?_, hm2⟩
      rw [hk1, hm1, List.append_assoc]
    · rcases Decidable.em (k = []) with rfl | hkne
      · refine Or.inr (Or.inr ⟨[], ?_, ?_⟩)
        · simpa using hk1.symm
        · simp only [List.nil_append] at hm1 hm2 ⊢
          rw [hm2, ← hm1]
      · rcases Decidable.em (m = []) with rfl | hmne
        · left
          refine ⟨[], ?_, ?_⟩
          · rw [hk1, hm1]
            simp
          · simp only [List.nil_append] at hm2 ⊢
            exact hm2.symm
        · exact Or.inr (Or.inl ⟨k, m, hm1, hkne, hmne, hk1, hm2⟩)

theorem reMatch_chars (re : RE) (v : List Char) (h : reMatch re v = true) :
    ∀ c ∈ v, reCanUse re c = true := by
  induction re generalizing v with
  | eps =>
    rw [reMatch_iff] at h
    simp only [prefixMatches, List.mem_singleton] at h
    subst h
    simp
  | cls p =>
    rw [reMatch_iff] at h
    rcases v with _ | ⟨c, v⟩
    · simp
    · simp only [prefixMatches] at h
      by_cases hc : p c
      · rw [if_pos hc] at h
        simp only [List.mem_singleton] at h
        subst h
        intro d hd
        simp only [List.mem_singleton] at hd
        subst hd
        simpa [reCanUse] using hc
      · rw [if_neg hc] at h
        simp at h
  | seq a b iha ihb =>
    rw [reMatch_iff] at h
    simp only [prefixMatches, List.mem_flatMap] at h
    obtain ⟨m, hma, hmb⟩ := h
    obtain ⟨u, hu, hmu⟩ := (prefixMatches_mem _ _ _).mp hma
    intro c hc
    rw [← hu] at hc
    rcases List.mem_append.mp hc with hcu | hcm
    · simp [reCanUse, iha u hmu c hcu]
    · simp [reCanUse, ihb m ((reMatch_iff _ _).mpr hmb) c hcm]
  | alt a b iha ihb =>
    rw [reMatch_iff] at h
    simp only [prefixMatches, List.mem_append] at h
    intro c hc
    rcases h with h | h
    · simp [reCanUse, iha v ((reMatch_iff _ _).mpr h) c hc]
    · simp [reCanUse, ihb v ((reMatch_iff _ _).mpr h) c hc]
  | starCls p =>
    rw [reMatch_iff] at h
    simp only [prefixMatches] at h
    rw [starAlts_mem] at h
    obtain ⟨w, hw, hall⟩ := h
    rw [List.append_nil] at hw
    subst hw
    intro c hc
    simpa [reCanUse] using List.all_eq_true.mp hall c hc

theorem reMatch_head (re : RE) (c : Char) (v : List Char)
    (h : reMatch re (c :: v) = true) : reFirstCanUse re c = true := by
  induction re generalizing c v with
  | eps =>
    rw [reMatch_iff] at h
    simp [prefixMatches] at h
  | cls p =>
    rw [reMatch_iff] at h
    simp only [prefixMatches] at h
    by_cases hc : p c
    · simpa [reFirstCanUse] using hc
    · rw [if_neg hc] at h
      simp at h
  | seq a b iha ihb =>
    rw [reMatch_iff] at h
    simp only [prefixMatches, List.mem_flatMap] at h
    obtain ⟨m, hma, hmb⟩ := h
    obtain ⟨u, hu, hmu⟩ := (prefixMatches_mem _ _ _).mp hma
    rcases u with _ | ⟨d, u⟩
    · simp only [List.nil_append] at hu
      subst hu
      have hb := ihb c v ((reMatch_iff _ _).mpr hmb)
      simp [reFirstCanUse, hmu, hb]
    · simp only [List.cons_append, List.cons.injEq] at hu
      obtain ⟨rfl, _⟩ := hu
      simp [reFirstCanUse, iha d u hmu]
  | alt a b iha ihb =>
    rw [reMatch_iff] at h
    simp only [prefixMatches, List.mem_append] at h
    rcases h with h | h
    · simp [reFirstCanUse, iha c v ((reMatch_iff _ _).mpr h)]
    · simp [reFirstCanUse, ihb c v ((reMatch_iff _ _).mpr h)]
  | starCls p =>
    rw [reMatch_iff] at h
    simp only [prefixMatches] at h
    rw [starAlts_mem] at h
    obtain ⟨w, hw, hall⟩ := h
    rw [List.append_nil] at hw
    rcases w with _ | ⟨d, w⟩
    · simp at hw
    · simp only [List.cons.injEq] at hw
      obtain ⟨rfl, _⟩ := hw
      simp only [List.all_cons, Bool.and_eq_true] at hall
      simpa [reFirstCanUse] using hall.1

/-- No accepted candidate can start at a character that cannot begin a
match. -/
theorem findEnd_none_of_head (core : RE) (prev : Option Char) (c : Char)
    (cs : List Char) (h : reFirstCanUse core c = false) :
    findEnd core prev (c :: cs) = none := by
  unfold findEnd
  by_cases hb : boundaryB prev (c :: cs).head? = true
  · rw [if_pos hb]
    rw [List.find?_eq_none]
    rintro ⟨v, r⟩ hmem hacc
    obtain ⟨happ, hm⟩ := (candAts_mem _ _ _ _).mp hmem
    simp only [acceptCand, Bool.and_eq_true, Bool.not_eq_true'] at hacc
    rcases v with _ | ⟨d, v⟩
    · simp at hacc
    · simp only [List.cons_append, List.cons.injEq] at happ
      obtain ⟨rfl, _⟩ := happ
      rw [reMatch_head _ _ _ hm] at h
      cases h
  · rw [if_neg hb]

/-- `(c :: v).getLast?` through the context helper. -/
theorem getLast_cons_lastCtx (c : Char) (v : List Char) :
    (c :: v).getLast? = lastCtx (some c) v := by
  rcases hv : v.getLast? with _ | d
  · have hnil : v = [] := List.getLast?_eq_none_iff.mp hv
    subst hnil
    rfl
  · have hvne : v ≠ [] := by
      intro h; subst h; simp at hv
    have hstep : (c :: v).getLast? = v.getLast? := by
      have hc : (c :: v) = [c] ++ v := rfl
      rw [hc, List.getLast?_append_of_ne_nil [c] hvne]
    rw [hstep, hv]
    simp [lastCtx, hv]

/-- A `\b` that holds before the output of a block list also holds
before its original text (the head differs only at a replaced block,
whose own leading `\b` against the original is recorded). -/
theorem head_transfer (coreq : RE) (validator : List Char → Bool)
    (maskOf : List Char → List Char) (bs : List PassBlock) (lcX : Option Char)
    (hwf : WfBlocks coreq validator maskOf lcX bs)
    (h : boundaryB lcX (render bs).head? = true) :
    boundaryB lcX (origOf bs).head? = true := by
  cases hwf with
  | nil => exact h
  | live lc c bsR hfe hwfR =>
    simpa [origOf, origB] using (by simpa [render, renderB] using h :
      boundaryB lcX (c :: render bsR).head? = true)
  | kept lc v0 bsR hfe hval hwfR =>
    obtain ⟨happ, hne, _, hlead, _⟩ := findEnd_some _ _ _ _ _ hfe
    rcases v0 with _ | ⟨d, v0⟩
    · exact absurd rfl hne
    · simpa [origOf, origB] using (by simpa [render, renderB] using h :
        boundaryB lcX ((d :: v0) ++ render bsR).head? = true)
  | masked lc v0 bsR hfe hval hwfR =>
    obtain ⟨happ, hne, _, hlead, _⟩ := findEnd_some _ _ _ _ _ hfe
    have horig : (origOf (PassBlock.masked v0 (maskOf v0) :: bsR)).head? =
        (v0 ++ origOf bsR).head? := by
      simp [origOf, origB]
    rw [horig]
    have hlead2 : boundaryB lcX (v0 ++ origOf bsR).head? = true := hlead
    exact hlead2

/-- Prefix extraction: a pattern-consumable prefix of a pass output is
a prefix of the original text too (it cannot enter a mask), and a
trailing `\b` after it transfers to the original text. -/
theorem px (corep coreq : RE) (validator : List Char → Bool)
    (maskOf : List Char → List Char)
    (HM : ∀ v, v ≠ [] → MaskSafe corep (maskOf v)) :
    ∀ (bs : List PassBlock) (lcX : Option Char),
      WfBlocks coreq validator maskOf lcX bs →
      ∀ (v w : List Char), v ++ w = render bs →
        (∀ c ∈ v, reCanUse corep c = true) →
        ∃ w2, v ++ w2 = origOf bs ∧
          (boundaryB (lastCtx lcX v) w.head? = true →
            boundaryB (lastCtx lcX v) w2.head? = true) := by
  intro bs lcX hwf
  induction hwf with
  | nil =>
    intro v w happ hcan
    simp only [render] at happ
    rcases List.append_eq_nil.mp happ with ⟨rfl, rfl⟩
    exact ⟨[], rfl, fun h => h⟩
  | live lc c bsR hfe hwfR ih =>
    intro v w happ hcan
    have hrender : render (PassBlock.live c :: bsR) = c :: render bsR := by
      simp [render, renderB]
    have horig : origOf (PassBlock.live c :: bsR) = c :: origOf bsR := by
      simp [origOf, origB]
    rcases v with _ | ⟨d, v2⟩
    · refine ⟨origOf (PassBlock.live c :: bsR), rfl, fun h => ?_⟩
      simp only [List.nil_append] at happ
      subst happ
      exact head_transfer coreq validator maskOf _ lc
        (WfBlocks.live lc c bsR hfe hwfR) h
    · rw [hrender] at happ
      simp only [List.cons_append, List.cons.injEq] at happ
      obtain ⟨rfl, happ2⟩ := happ
      obtain ⟨w2, hw2, htr⟩ := ih v2 w happ2
        (fun e he => hcan e (List.mem_cons_of_mem _ he))
      refine ⟨w2, ?_, ?_⟩
      · rw [horig, ← hw2]
        rfl
      · rw [lastCtx_cons]
        exact htr
  | kept lc v0 bsR hfe hval hwfR ih =>
    intro v w happ hcan
    obtain ⟨happ0, hne0, _, _, _⟩ := findEnd_some _ _ _ _ _ hfe
    have hrender : render (PassBlock.kept v0 :: bsR) = v0 ++ render bsR := by
      simp [render, renderB]
    have horig : origOf (PassBlock.kept v0 :: bsR) = v0 ++ origOf bsR := by
      simp [origOf, origB]
    rcases v with _ | ⟨d, v2⟩
    · refine ⟨origOf (PassBlock.kept v0 :: bsR), rfl, fun h => ?_⟩
      simp only [List.nil_append] at happ
      subst happ
      exact head_transfer coreq validator maskOf _ lc
        (WfBlocks.kept lc v0 bsR hfe hval hwfR) h
    · rw [hrender] at happ
      rcases List.append_eq_append_iff.mp happ with ⟨k, hk1, hk2⟩ | ⟨k, hk1, hk2⟩
      · -- v is a prefix of the kept block (k is the rest of it)
        refine ⟨k ++ origOf bsR, ?_, ?_⟩
        · rw [horig, ← List.append_assoc, ← hk1]
        · intro h
          rcases k with _ | ⟨e, k2⟩
          · simp only [List.append_nil] at hk1
            simp only [List.nil_append] at hk2 ⊢
            have hx : lastCtx lc (d :: v2) = v0.getLast? := by
              rw [lastCtx_of_ne_nil lc (d :: v2) (List.cons_ne_nil d v2), ← hk1]
            rw [hk2] at h
            rw [hx] at h ⊢
            exact head_transfer coreq validator maskOf bsR v0.getLast? hwfR h
          · rw [hk2] at h
            simpa using h
      · -- v covers the kept block and continues (k is the rest of v)
        obtain ⟨w2, hw2, htr⟩ := ih k w (by rw [hk2])
          (fun e he => hcan e (by rw [hk1]; exact List.mem_append_right _ he))
        refine ⟨w2, ?_, ?_⟩
        · rw [horig, ← hw2, hk1, List.append_assoc]
        · have hx : lastCtx lc (d :: v2) = lastCtx v0.getLast? k := by
            have h1 : (d :: v2) = v0 ++ k := hk1
            rw [show lastCtx lc (d :: v2) = lastCtx lc (v0 ++ k) by rw [h1],
              lastCtx_append, lastCtx_of_ne_nil lc v0 hne0]
          rw [hx]
          exact htr
  | masked lc v0 bsR hfe hval hwfR ih =>
    intro v w happ hcan
    have hrender : render (PassBlock.masked v0 (maskOf v0) :: bsR) =
        maskOf v0 ++ render bsR := by
      simp [render, renderB]
    have horig : origOf (PassBlock.masked v0 (maskOf v0) :: bsR) =
        v0 ++ origOf bsR := by
      simp [origOf, origB]
    rcases v with _ | ⟨d, v2⟩
    · refine ⟨origOf (PassBlock.masked v0 (maskOf v0) :: bsR), rfl, fun h => ?_⟩
      simp only [List.nil_append] at happ
      subst happ
      exact head_transfer coreq validator maskOf _ lc
        (WfBlocks.masked lc v0 bsR hfe hval hwfR) h
    · exfalso
      obtain ⟨_, hne0, _, _, _⟩ := findEnd_some _ _ _ _ _ hfe
      rw [hrender] at happ
      rcases hmk : maskOf v0 with _ | ⟨mh, mt⟩
      · exact (HM v0 hne0).ne hmk
      · rw [hmk] at happ
        simp only [List.cons_append, List.cons.injEq] at happ
        obtain ⟨rfl, _⟩ := happ
        have h1 := hcan d (List.mem_cons_self _ _)
        have h2 := (HM v0 hne0).headNoUse d (by rw [hmk]; rfl)
        rw [h1] at h2
        cases h2

/-- Small helper: the optional last element of a nonempty list. -/
theorem exists_getLast_opt {α : Type} (l : List α) (h : l ≠ []) :
    ∃ a, l.getLast? = some a := by
  rcases hg : l.getLast? with _ | a
  · exact absurd (List.getLast?_eq_none_iff.mp hg) h
  · exact ⟨a, rfl⟩

/-- Small helper: the optional last element is a member. -/
theorem mem_of_getLast_opt {α : Type} {l : List α} {a : α}
    (h : l.getLast? = some a) : a ∈ l := by
  induction l with
  | nil => simp at h
  | cons b l ih =>
    rcases l with _ | ⟨c, l2⟩
    · simp only [List.getLast?_singleton, Option.some.injEq] at h
      simp [h]
    · have hne : (c :: l2) ≠ ([] : List α) := by simp
      rw [show b :: c :: l2 = [b] ++ (c :: l2) from rfl,
        List.getLast?_append_of_ne_nil [b] hne] at h
      exact List.mem_cons_of_mem _ (ih h)

/-- Small helper: head of an append with nonempty left part. -/
theorem headq_append {α : Type} (l1 l2 : List α) (h : l1 ≠ []) :
    (l1 ++ l2).head? = l1.head? := by
  rcases l1 with _ | ⟨a, l1⟩
  · exact absurd rfl h
  · rfl

/-- The first character of a pass output that the span pattern can
consume is also the first character of the original text: a mask can
never supply it. -/
theorem head_agree (corep coreq : RE) (validator : List Char → Bool)
    (maskOf : List Char → List Char)
    (HM : ∀ v, v ≠ [] → MaskSafe corep (maskOf v))
    (bs : List PassBlock) (lcX : Option Char)
    (hwf : WfBlocks coreq validator maskOf lcX bs)
    (c : Char) (hhead : (render bs).head? = some c)
    (hcan : reCanUse corep c = true) :
    (origOf bs).head? = some c := by
  cases hwf with
  | nil => simp [render] at hhead
  | live lc d bsR hfe hwfR =>
    have h1 : (render (PassBlock.live d :: bsR)).head? = some d := by
      simp [render, renderB]
    rw [h1] at hhead
    simp [origOf, origB, hhead]
  | kept lc v0 bsR hfe hval hwfR =>
    obtain ⟨_, hne0, _, _, _⟩ := findEnd_some _ _ _ _ _ hfe
    have h1 : (render (PassBlock.kept v0 :: bsR)).head? = v0.head? := by
      simp only [render, List.flatMap_cons, renderB]
      exact headq_append _ _ hne0
    have h2 : (origOf (PassBlock.kept v0 :: bsR)).head? = v0.head? := by
      simp only [origOf, List.flatMap_cons, origB]
      exact headq_append _ _ hne0
    rw [h1] at hhead
    rw [h2, hhead]
  | masked lc v0 bsR hfe hval hwfR =>
    exfalso
    obtain ⟨_, hne0, _, _, _⟩ := findEnd_some _ _ _ _ _ hfe
    have h1 : (render (PassBlock.masked v0 (maskOf v0) :: bsR)).head? =
        (maskOf v0).head? := by
      simp only [render, List.flatMap_cons, renderB]
      exact headq_append _ _ (HM v0 hne0).ne
    rw [h1] at hhead
    have := (HM v0 hne0).headNoUse c hhead
    rw [hcan] at this
    cases this

/-- Every replaced block of a well-formed pass trace is an accepted,
validator-passing match of the pass pattern inside the original
text. -/
theorem masked_gives_span (coreq : RE) (validator : List Char → Bool)
    (maskOf : List Char → List Char) :
    ∀ (bs : List PassBlock) (lcX : Option Char),
      WfBlocks coreq validator maskOf lcX bs →
      ∀ v out, PassBlock.masked v out ∈ bs →
      ∃ u w, u ++ v ++ w = origOf bs ∧ v ≠ [] ∧ reMatch coreq v = true ∧
        validator v = true ∧ boundaryB (lastCtx lcX u) v.head? = true ∧
        boundaryB v.getLast? w.head? = true := by
  intro bs lcX hwf
  induction hwf with
  | nil =>
    intro v out hmem
    simp at hmem
  | live lc c bsR hfe hwfR ih =>
    intro v out hmem
    rcases List.mem_cons.mp hmem with heq | hmem2
    · simp at heq
    · obtain ⟨u, w, hspan, hne, hm, hval, hlead, htrail⟩ := ih v out hmem2
      refine ⟨c :: u, w, ?_, hne, hm, hval, ?_, htrail⟩
      · simp only [origOf, List.flatMap_cons, origB, List.cons_append,
          List.singleton_append]
        simp only [origOf] at hspan
        rw [hspan]
        simp
      · rwa [lastCtx_cons]
  | kept lc v0 bsR hfe hval0 hwfR ih =>
    intro v out hmem
    obtain ⟨_, hne0, _, _, _⟩ := findEnd_some _ _ _ _ _ hfe
    rcases List.mem_cons.mp hmem with heq | hmem2
    · simp at heq
    · obtain ⟨u, w, hspan, hne, hm, hval, hlead, htrail⟩ := ih v out hmem2
      refine ⟨v0 ++ u, w, ?_, hne, hm, hval, ?_, htrail⟩
      · simp only [origOf, List.flatMap_cons, origB]
        simp only [origOf] at hspan
        rw [← hspan]
        simp [List.append_assoc]
      · rwa [lastCtx_append, lastCtx_of_ne_nil _ v0 hne0]
  | masked lc v0 bsR hfe hval0 hwfR ih =>
    intro v out hmem
    obtain ⟨happ0, hne0, hm0, hlead0, htrail0⟩ := findEnd_some _ _ _ _ _ hfe
    rcases List.mem_cons.mp hmem with heq | hmem2
    · have hv : v = v0 := by
        cases heq
        rfl
      subst hv
      refine ⟨[], origOf bsR, ?_, hne0, hm0, hval0, ?_, htrail0⟩
      · simp [origOf, origB]
      · rw [lastCtx_nil]
        rwa [headq_append _ _ hne0] at hlead0
    · obtain ⟨u, w, hspan, hne, hm, hval, hlead, htrail⟩ := ih v out hmem2
      refine ⟨v0 ++ u, w, ?_, hne, hm, hval, ?_, htrail⟩
      · simp only [origOf, List.flatMap_cons, origB]
        simp only [origOf] at hspan
        rw [← hspan]
        simp [List.append_assoc]
      · rwa [lastCtx_append, lastCtx_of_ne_nil _ v0 hne0]

/-- Main pull-back: an accepted span of a pattern in the OUTPUT of a
pass maps to the same span, with its boundaries, in the pass INPUT;
moreover at the mapped position the pass itself found nothing, unless
the pass kept some validator-rejected match. -/
theorem span_back_main (corep coreq : RE) (validator : List Char → Bool)
    (maskOf : List Char → List Char)
    (HM : ∀ v, v ≠ [] → MaskSafe corep (maskOf v)) :
    ∀ (bs : List PassBlock) (lcX : Option Char),
      WfBlocks coreq validator maskOf lcX bs →
      ∀ u v w, u ++ v ++ w = render bs → v ≠ [] → reMatch corep v = true →
        boundaryB (lastCtx lcX u) v.head? = true →
        boundaryB v.getLast? w.head? = true →
        ∃ u2 w2, u2 ++ v ++ w2 = origOf bs ∧
          boundaryB (lastCtx lcX u2) v.head? = true ∧
          boundaryB v.getLast? w2.head? = true ∧
          (findEnd coreq (lastCtx lcX u2) (v ++ w2) = none ∨
            ∃ v0, validator v0 = false ∧ PassBlock.kept v0 ∈ bs) := by
  intro bs lcX hwf
  induction hwf with
  | nil =>
    intro u v w happ hne hm hlead htrail
    exfalso
    have h0 : u ++ (v ++ w) = ([] : List Char) := by simpa [render] using happ
    rcases List.append_eq_nil.mp h0 with ⟨_, h1⟩
    rcases List.append_eq_nil.mp h1 with ⟨h2, _⟩
    exact hne h2
  | live lc c bsR hfe hwfR ih =>
    intro u v w happ hne hm hlead htrail
    have hrender : render (PassBlock.live c :: bsR) = c :: render bsR := by
      simp [render, renderB]
    have horig : origOf (PassBlock.live c :: bsR) = c :: origOf bsR := by
      simp [origOf, origB]
    rw [hrender] at happ
    rcases u with _ | ⟨d, u1⟩
    · rcases v with _ | ⟨e, v1⟩
      · exact absurd rfl hne
      simp only [List.nil_append, List.cons_append, List.cons.injEq] at happ
      obtain ⟨he, happ2⟩ := happ
      have hwfR2 : WfBlocks coreq validator maskOf (some e) bsR := by
        rw [he]; exact hwfR
      have hcanv := reMatch_chars corep _ hm
      obtain ⟨w2, hw2, htr⟩ := px corep coreq validator maskOf HM bsR (some e)
        hwfR2 v1 w happ2 (fun x hx => hcanv x (List.mem_cons_of_mem _ hx))
      have hgl : lastCtx (some e) v1 = (e :: v1).getLast? :=
        (getLast_cons_lastCtx e v1).symm
      refine ⟨[], w2, ?_, ?_, ?_, ?_⟩
      · rw [horig]
        simp only [List.nil_append, List.cons_append]
        rw [hw2, he]
      · exact hlead
      · have h1 : boundaryB (lastCtx (some e) v1) w.head? = true := by rwa [hgl]
        have h2 := htr h1
        rwa [hgl] at h2
      · left
        rw [lastCtx_nil]
        have hx : (e :: v1) ++ w2 = c :: origOf bsR := by
          simp only [List.cons_append]
          rw [hw2, he]
        rw [hx]
        exact hfe
    · simp only [List.cons_append, List.cons.injEq] at happ
      obtain ⟨he, happ2⟩ := happ
      have hlead1 : boundaryB (lastCtx (some c) u1) v.head? = true := by
        rw [lastCtx_cons] at hlead
        rwa [he] at hlead
      obtain ⟨u2, w2, hspan, hlead2, htrail2, hdisj⟩ :=
        ih u1 v w happ2 hne hm hlead1 htrail
      refine ⟨c :: u2, w2, ?_, ?_, htrail2, ?_⟩
      · rw [horig]
        simp only [List.cons_append]
        rw [hspan]
      · rwa [lastCtx_cons]
      · rcases hdisj with h1 | ⟨vk, hvk, hmem⟩
        · left
          rwa [lastCtx_cons]
        · exact Or.inr ⟨vk, hvk, List.mem_cons_of_mem _ hmem⟩
  | kept lc v0 bsR hfe hval0 hwfR ih =>
    intro u v w happ hne hm hlead htrail
    obtain ⟨happ0, hne0, hm0, hlead0, htrail0⟩ := findEnd_some _ _ _ _ _ hfe
    have hrender : render (PassBlock.kept v0 :: bsR) = v0 ++ render bsR := by
      simp [render, renderB]
    have horig : origOf (PassBlock.kept v0 :: bsR) = v0 ++ origOf bsR := by
      simp [origOf, origB]
    rw [hrender] at happ
    rcases span_split v0 (render bsR) u v w happ.symm with
      ⟨w1, hA, hw⟩ | ⟨v1, v2, hv, hv1ne, hv2ne, hA, hB⟩ | ⟨u2a, hu, hB⟩
    · refine ⟨u, w1 ++ origOf bsR, ?_, hlead, ?_,
        Or.inr ⟨v0, hval0, List.mem_cons_self _ _⟩⟩
      · rw [horig, hA]
        simp [List.append_assoc]
      · rcases w1 with _ | ⟨e, w1t⟩
        · have hveq : v0.getLast? = v.getLast? := by
            have hx : v0 = u ++ v := by simpa using hA
            rw [hx, List.getLast?_append_of_ne_nil u hne]
          simp only [List.nil_append]
          rw [← hveq]
          exact htrail0
        · have hwh : w.head? = some e := by rw [hw]; rfl
          have hx : ((e :: w1t) ++ origOf bsR).head? = some e := rfl
          rw [hx]
          rw [hwh] at htrail
          exact htrail
    · have hcanv := reMatch_chars corep _ hm
      obtain ⟨w2, hw2, htr⟩ := px corep coreq validator maskOf HM bsR v0.getLast?
        hwfR v2 w hB.symm
        (fun x hx => hcanv x (by rw [hv]; exact List.mem_append_right _ hx))
      have hvl : lastCtx v0.getLast? v2 = v.getLast? := by
        rw [lastCtx_of_ne_nil _ v2 hv2ne, hv,
          List.getLast?_append_of_ne_nil v1 hv2ne]
      refine ⟨u, w2, ?_, hlead, ?_,
        Or.inr ⟨v0, hval0, List.mem_cons_self _ _⟩⟩
      · rw [horig, hA, hv, ← hw2]
        simp [List.append_assoc]
      · have h1 : boundaryB (lastCtx v0.getLast? v2) w.head? = true := by rwa [hvl]
        have h2 := htr h1
        rwa [hvl] at h2
    · have hlead1 : boundaryB (lastCtx v0.getLast? u2a) v.head? = true := by
        rw [hu] at hlead
        rwa [lastCtx_append, lastCtx_of_ne_nil _ v0 hne0] at hlead
      obtain ⟨u2, w2, hspan, hlead2, htrail2, hdisj⟩ :=
        ih u2a v w hB.symm hne hm hlead1 htrail
      refine ⟨v0 ++ u2, w2, ?_, ?_, htrail2, ?_⟩
      · rw [horig, ← hspan]
        simp [List.append_assoc]
      · rwa [lastCtx_append, lastCtx_of_ne_nil _ v0 hne0]
      · rcases hdisj with h1 | ⟨vk, hvk, hmem⟩
        · left
          rwa [lastCtx_append, lastCtx_of_ne_nil _ v0 hne0]
        · exact Or.inr ⟨vk, hvk, List.mem_cons_of_mem _ hmem⟩
  | masked lc v0 bsR hfe hval0 hwfR ih =>
    intro u v w happ hne hm hlead htrail
    obtain ⟨happ0, hne0, hm0, hlead0, htrail0⟩ := findEnd_some _ _ _ _ _ hfe
    have hms := HM v0 hne0
    have hrender : render (PassBlock.masked v0 (maskOf v0) :: bsR) =
        maskOf v0 ++ render bsR := by
      simp [render, renderB]
    have horig : origOf (PassBlock.masked v0 (maskOf v0) :: bsR) =
        v0 ++ origOf bsR := by
      simp [origOf, origB]
    have hcanv := reMatch_chars corep _ hm
    rw [hrender] at happ
    rcases span_split (maskOf v0) (render bsR) u v w happ.symm with
      ⟨w1, hA, hw⟩ | ⟨v1, v2, hv, hv1ne, hv2ne, hA, hB⟩ | ⟨u2a, hu, hB⟩
    · exfalso
      rcases u with _ | ⟨d, u1⟩
      · rcases v with _ | ⟨e, v1⟩
        · exact absurd rfl hne
        have hh : (maskOf v0).head? = some e := by rw [hA]; rfl
        have hx := hms.headNoUse e hh
        rw [hcanv e (List.mem_cons_self _ _)] at hx
        cases hx
      · rcases w1 with _ | ⟨e, w1t⟩
        · obtain ⟨x, hx⟩ := exists_getLast_opt v hne
          have hl : (maskOf v0).getLast? = some x := by
            have hA2 : maskOf v0 = (d :: u1) ++ v := by simpa using hA
            rw [hA2, List.getLast?_append_of_ne_nil (d :: u1) hne]
            exact hx
          have hy := hms.lastNoUse x hl
          rw [hcanv x (mem_of_getLast_opt hx)] at hy
          cases hy
        · refine hms.interior (d :: u1) v (e :: w1t) (by simpa using hA)
            (by simp) hne (by simp) hm ?_ ?_
          · rwa [lastCtx_of_ne_nil _ (d :: u1) (by simp)] at hlead
          · have hwh : w.head? = some e := by rw [hw]; rfl
            rw [hwh] at htrail
            exact htrail
    · exfalso
      obtain ⟨x, hx⟩ := exists_getLast_opt v1 hv1ne
      have hl : (maskOf v0).getLast? = some x := by
        rw [hA, List.getLast?_append_of_ne_nil u hv1ne]
        exact hx
      have hy := hms.lastNoUse x hl
      have hxm : x ∈ v := by
        rw [hv]
        exact List.mem_append_left _ (mem_of_getLast_opt hx)
      rw [hcanv x hxm] at hy
      cases hy
    · have hlead1 : boundaryB (lastCtx v0.getLast? u2a) v.head? = true := by
        rcases u2a with _ | ⟨f, u2t⟩
        · rcases v with _ | ⟨e, v1⟩
          · exact absurd rfl hne
          have hh : (render bsR).head? = some e := by
            rw [hB]; rfl
          have hagree := head_agree corep coreq validator maskOf HM bsR
            v0.getLast? hwfR e hh (hcanv e (List.mem_cons_self _ _))
          rw [lastCtx_nil]
          have hz : boundaryB v0.getLast? (origOf bsR).head? = true := htrail0
          rw [hagree] at hz
          exact hz
        · have h1 : lastCtx lc (maskOf v0 ++ (f :: u2t)) = (f :: u2t).getLast? := by
            rw [lastCtx_of_ne_nil _ _
              (by simp : maskOf v0 ++ (f :: u2t) ≠ []),
              List.getLast?_append_of_ne_nil (maskOf v0) (by simp)]
          rw [hu, h1] at hlead
          rwa [lastCtx_of_ne_nil _ (f :: u2t) (by simp)]
      obtain ⟨u2, w2, hspan, hlead2, htrail2, hdisj⟩ :=
        ih u2a v w hB.symm hne hm hlead1 htrail
      refine ⟨v0 ++ u2, w2, ?_, ?_, htrail2, ?_⟩
      · rw [horig, ← hspan]
        simp [List.append_assoc]
      · rwa [lastCtx_append, lastCtx_of_ne_nil _ v0 hne0]
      · rcases hdisj with h1 | ⟨vk, hvk, hmem⟩
        · left
          rwa [lastCtx_append, lastCtx_of_ne_nil _ v0 hne0]
        · exact Or.inr ⟨vk, hvk, List.mem_cons_of_mem _ hmem⟩

/-- Splitting a suffix equation when the right part is long enough. -/
theorem suffix_split {α : Type} (v r C Z2 : List α) (h : v ++ r = C ++ Z2)
    (hlen : Z2.length ≤ r.length) : ∃ D, r = D ++ Z2 ∧ C = v ++ D := by
  rcases List.append_eq_append_iff.mp h with ⟨k, hk1, hk2⟩ | ⟨k, hk1, hk2⟩
  · exact ⟨k, hk2, hk1⟩
  · have hlen2 := congrArg List.length hk2
    simp only [List.length_append] at hlen2
    have hk0 : k.length = 0 := by omega
    have hknil : k = [] := List.length_eq_zero.mp hk0
    subst hknil
    simp only [List.nil_append] at hk2
    simp only [List.append_nil] at hk1
    exact ⟨[], by simpa using hk2.symm, by simpa using hk1.symm⟩

theorem flatMap_after_map {α β γ : Type} (l : List α) (f : α → β)
    (h : β → List γ) : (l.map f).flatMap h = l.flatMap (fun x => h (f x)) := by
  induction l with
  | nil => rfl
  | cons x l ih => simp [ih]

theorem map_after_flatMap {α β γ : Type} (l : List α) (h : α → List β)
    (f : β → γ) : (l.flatMap h).map f = l.flatMap (fun x => (h x).map f) := by
  induction l with
  | nil => rfl
  | cons x l ih => simp [ih]

theorem filter_of_flatMap {α β : Type} (l : List α) (h : α → List β)
    (p : β → Bool) :
    (l.flatMap h).filter p = l.flatMap (fun x => (h x).filter p) := by
  induction l with
  | nil => rfl
  | cons x l ih => simp [List.filter_append, ih]

theorem flatMap_congr_mem {α β : Type} (l : List α) (h1 h2 : α → List β)
    (he : ∀ x ∈ l, h1 x = h2 x) : l.flatMap h1 = l.flatMap h2 := by
  induction l with
  | nil => rfl
  | cons x l ih =>
    simp only [List.flatMap_cons]
    rw [he x (List.mem_cons_self _ _), ih (fun y hy => he y (List.mem_cons_of_mem _ hy))]

theorem flatMap_filter_drop {α β : Type} (l : List α) (h : α → List β)
    (g : α → Bool) (he : ∀ x ∈ l, g x = false → h x = []) :
    (l.filter g).flatMap h = l.flatMap h := by
  induction l with
  | nil => rfl
  | cons x l ih =>
    rcases hg : g x with _ | _
    · simp only [List.filter_cons, hg, Bool.false_eq_true, if_false, List.flatMap_cons]
      rw [he x (List.mem_cons_self _ _) hg]
      simp only [List.nil_append]
      exact ih (fun y hy hgy => he y (List.mem_cons_of_mem _ hy) hgy)
    · simp only [List.filter_cons, hg, if_true, List.flatMap_cons]
      rw [ih (fun y hy hgy => he y (List.mem_cons_of_mem _ hy) hgy)]

theorem swapTail_nil {α : Type} (n : Nat) (Z1 : List α) :
    swapTail n Z1 [] = [] := rfl

theorem swapTail_cons_keep {α : Type} (n : Nat) (Z1 r : List α)
    (l : List (List α)) (h : n ≤ r.length) :
    swapTail n Z1 (r :: l) = (r.take (r.length - n) ++ Z1) :: swapTail n Z1 l := by
  simp [swapTail, List.filterMap_cons, h]

theorem swapTail_cons_drop {α : Type} (n : Nat) (Z1 r : List α)
    (l : List (List α)) (h : r.length < n) :
    swapTail n Z1 (r :: l) = swapTail n Z1 l := by
  simp [swapTail, List.filterMap_cons, Nat.not_le.mpr h]

theorem swapTail_append {α : Type} (n : Nat) (Z1 : List α)
    (l1 l2 : List (List α)) :
    swapTail n Z1 (l1 ++ l2) = swapTail n Z1 l1 ++ swapTail n Z1 l2 := by
  simp [swapTail, List.filterMap_append]

theorem swapTail_flatMapQ {α β : Type} (n : Nat) (Z1 : List α) (l : List β)
    (h : β → List (List α)) :
    swapTail n Z1 (l.flatMap h) = l.flatMap (fun x => swapTail n Z1 (h x)) := by
  induction l with
  | nil => rfl
  | cons x l ih => simp only [List.flatMap_cons, swapTail_append, ih]

theorem swapTail_eq_nil_of_short {α : Type} (n : Nat) (Z1 : List α)
    (l : List (List α)) (h : ∀ r ∈ l, r.length < n) :
    swapTail n Z1 l = [] := by
  induction l with
  | nil => rfl
  | cons r l ih =>
    rw [swapTail_cons_drop n Z1 r l (h r (List.mem_cons_self _ _))]
    exact ih (fun x hx => h x (List.mem_cons_of_mem _ hx))

theorem swapTail_single_full {α : Type} (C Z1 Z2 : List α) :
    swapTail Z2.length Z1 [C ++ Z2] = [C ++ Z1] := by
  have hk : Z2.length ≤ (C ++ Z2).length := by
    simp only [List.length_append]
    omega
  rw [swapTail_cons_keep _ _ _ _ hk, swapTail_nil]
  have ht : (C ++ Z2).take ((C ++ Z2).length - Z2.length) = C := by
    have h2 : (C ++ Z2).length - Z2.length = C.length := by
      simp only [List.length_append]
      omega
    rw [h2, List.take_left]
  rw [ht]

theorem flatMap_after_swapTail {α β : Type} (n : Nat) (Z1 : List α)
    (l : List (List α)) (h2 : List α → List β) :
    (swapTail n Z1 l).flatMap h2 =
      l.flatMap (fun r => if n ≤ r.length then h2 (r.take (r.length - n) ++ Z1)
        else []) := by
  induction l with
  | nil => rfl
  | cons r l ih =>
    by_cases hn : n ≤ r.length
    · rw [swapTail_cons_keep _ _ _ _ hn, List.flatMap_cons, ih,
        List.flatMap_cons, if_pos hn]
    · rw [swapTail_cons_drop _ _ _ _ (Nat.not_le.mp hn), ih, List.flatMap_cons,
        if_neg hn]
      rfl

theorem starAlts_short (p : Char → Bool) (cs r : List Char)
    (h : r ∈ starAlts p cs) : r.length ≤ cs.length := by
  obtain ⟨v, hv, _⟩ := (starAlts_mem p cs r).mp h
  have := congrArg List.length hv
  simp only [List.length_append] at this
  omega

theorem pm_short (re : RE) (cs r : List Char) (h : r ∈ prefixMatches re cs) :
    r.length ≤ cs.length := by
  obtain ⟨v, hv, _⟩ := (prefixMatches_mem re cs r).mp h
  have := congrArg List.length hv
  simp only [List.length_append] at this
  omega

/-- A greedy class star over a full text has exactly one remainder of
full length: the untouched text itself. -/
theorem starAlts_swapTail_full (p : Char → Bool) (cs Z1 : List Char) :
    swapTail cs.length Z1 (starAlts p cs) = [Z1] := by
  induction cs with
  | nil =>
    simp [starAlts, swapTail]
  | cons c t ih =>
    rcases hc : p c with _ | _
    · show swapTail (c :: t).length Z1 (starAlts p (c :: t)) = [Z1]
      rw [show starAlts p (c :: t) = [c :: t] from by simp [starAlts, hc]]
      rw [swapTail_cons_keep _ _ _ _ (Nat.le_refl _), swapTail_nil]
      simp
    · show swapTail (c :: t).length Z1 (starAlts p (c :: t)) = [Z1]
      rw [show starAlts p (c :: t) = starAlts p t ++ [c :: t] from by
        simp [starAlts, hc]]
      rw [swapTail_append]
      rw [swapTail_eq_nil_of_short _ _ _ (fun r hr => by
        have := starAlts_short p t r hr
        simp only [List.length_cons]
        omega)]
      rw [swapTail_cons_keep _ _ _ _ (Nat.le_refl _), swapTail_nil]
      simp

/-- Stability of the greedy class star remainders when the text beyond
`C` cannot be entered. -/
theorem starAlts_stab (p : Char → Bool) :
    ∀ (C Z1 Z2 : List Char), (∀ c, Z1.head? = some c → p c = false) →
    starAlts p (C ++ Z1) = swapTail Z2.length Z1 (starAlts p (C ++ Z2)) := by
  intro C
  induction C with
  | nil =>
    intro Z1 Z2 h1
    simp only [List.nil_append]
    have hl : starAlts p Z1 = [Z1] := by
      rcases Z1 with _ | ⟨c1, t1⟩
      · rfl
      · simp [starAlts, h1 c1 rfl]
    rw [hl, starAlts_swapTail_full]
  | cons d C ih =>
    intro Z1 Z2 h1
    rcases hd : p d with _ | _
    · have l1 : starAlts p ((d :: C) ++ Z1) = [(d :: C) ++ Z1] := by
        show starAlts p (d :: (C ++ Z1)) = [d :: (C ++ Z1)]
        simp [starAlts, hd]
      have l2 : starAlts p ((d :: C) ++ Z2) = [(d :: C) ++ Z2] := by
        show starAlts p (d :: (C ++ Z2)) = [d :: (C ++ Z2)]
        simp [starAlts, hd]
      rw [l1, l2, swapTail_single_full]
    · have l1 : starAlts p ((d :: C) ++ Z1) =
          starAlts p (C ++ Z1) ++ [(d :: C) ++ Z1] := by
        show starAlts p (d :: (C ++ Z1)) =
          starAlts p (C ++ Z1) ++ [d :: (C ++ Z1)]
        simp [starAlts, hd]
      have l2 : starAlts p ((d :: C) ++ Z2) =
          starAlts p (C ++ Z2) ++ [(d :: C) ++ Z2] := by
        show starAlts p (d :: (C ++ Z2)) =
          starAlts p (C ++ Z2) ++ [d :: (C ++ Z2)]
        simp [starAlts, hd]
      rw [l1, l2, swapTail_append, swapTail_single_full, ih Z1 Z2 h1]

/-- Stability of the candidate remainder list: when the text beyond
`C` cannot be entered (its first character belongs to no class of the
expression), the remainders over `C ++ Z1` are exactly the long-enough
remainders over `C ++ Z2` with the tail exchanged, in the same
preference order. -/
theorem pm_stab (re : RE) :
    ∀ (C Z1 Z2 : List Char), (∀ c, Z1.head? = some c → reCanUse re c = false) →
    prefixMatches re (C ++ Z1) =
      swapTail Z2.length Z1 (prefixMatches re (C ++ Z2)) := by
  induction re with
  | eps =>
    intro C Z1 Z2 h1
    show [C ++ Z1] = swapTail Z2.length Z1 [C ++ Z2]
    rw [swapTail_single_full]
  | cls p =>
    intro C Z1 Z2 h1
    rcases C with _ | ⟨d, C'⟩
    · have hlhs : prefixMatches (RE.cls p) (([] : List Char) ++ Z1) = [] := by
        rcases Z1 with _ | ⟨c1, t1⟩
        · rfl
        · have hc1 : p c1 = false := h1 c1 rfl
          simp [prefixMatches, hc1]
      rw [hlhs]
      rcases Z2 with _ | ⟨c2, t2⟩
      · rfl
      · show ([] : List (List Char)) =
          swapTail (c2 :: t2).length Z1 (prefixMatches (RE.cls p) (c2 :: t2))
        rcases hc2 : p c2 with _ | _
        · rw [show prefixMatches (RE.cls p) (c2 :: t2) = [] from by
            simp [prefixMatches, hc2]]
          rfl
        · rw [show prefixMatches (RE.cls p) (c2 :: t2) = [t2] from by
            simp [prefixMatches, hc2]]
          rw [swapTail_cons_drop _ _ _ _ (by simp only [List.length_cons]; omega),
            swapTail_nil]
    · rcases hd : p d with _ | _
      · have l1 : prefixMatches (RE.cls p) ((d :: C') ++ Z1) = [] := by
          show prefixMatches (RE.cls p) (d :: (C' ++ Z1)) = []
          simp [prefixMatches, hd]
        have l2 : prefixMatches (RE.cls p) ((d :: C') ++ Z2) = [] := by
          show prefixMatches (RE.cls p) (d :: (C' ++ Z2)) = []
          simp [prefixMatches, hd]
        rw [l1, l2]
        rfl
      · have l1 : prefixMatches (RE.cls p) ((d :: C') ++ Z1) = [C' ++ Z1] := by
          show prefixMatches (RE.cls p) (d :: (C' ++ Z1)) = [C' ++ Z1]
          simp [prefixMatches, hd]
        have l2 : prefixMatches (RE.cls p) ((d :: C') ++ Z2) = [C' ++ Z2] := by
          show prefixMatches (RE.cls p) (d :: (C' ++ Z2)) = [C' ++ Z2]
          simp [prefixMatches, hd]
        rw [l1, l2, swapTail_single_full]
  | seq a b iha ihb =>
    intro C Z1 Z2 h1
    have h1a : ∀ c, Z1.head? = some c → reCanUse a c = false := by
      intro c hc
      have hx := h1 c hc
      simp only [reCanUse, Bool.or_eq_false_iff] at hx
      exact hx.1
    have h1b : ∀ c, Z1.head? = some c → reCanUse b c = false := by
      intro c hc
      have hx := h1 c hc
      simp only [reCanUse, Bool.or_eq_false_iff] at hx
      exact hx.2
    simp only [prefixMatches]
    rw [iha C Z1 Z2 h1a]
    rw [flatMap_after_swapTail]
    rw [swapTail_flatMapQ]
    apply flatMap_congr_mem
    intro r hr
    by_cases hn : Z2.length ≤ r.length
    · rw [if_pos hn]
      obtain ⟨vr, hvr, _⟩ := (prefixMatches_mem a (C ++ Z2) r).mp hr
      obtain ⟨D, hD, hCD⟩ := suffix_split vr r C Z2 hvr hn
      have htk : r.take (r.length - Z2.length) = D := by
        have h2 : r.length - Z2.length = D.length := by
          have := congrArg List.length hD
          simp only [List.length_append] at this
          omega
        rw [h2, hD, List.take_left]
      rw [htk, ihb D Z1 Z2 h1b, hD]
    · rw [if_neg hn]
      rw [swapTail_eq_nil_of_short _ _ _ (fun r2 hr2 => by
        have := pm_short b r r2 hr2
        omega)]
  | alt a b iha ihb =>
    intro C Z1 Z2 h1
    have h1a : ∀ c, Z1.head? = some c → reCanUse a c = false := by
      intro c hc
      have hx := h1 c hc
      simp only [reCanUse, Bool.or_eq_false_iff] at hx
      exact hx.1
    have h1b : ∀ c, Z1.head? = some c → reCanUse b c = false := by
      intro c hc
      have hx := h1 c hc
      simp only [reCanUse, Bool.or_eq_false_iff] at hx
      exact hx.2
    simp only [prefixMatches]
    rw [iha C Z1 Z2 h1a, ihb C Z1 Z2 h1b, swapTail_append]
  | starCls p =>
    intro C Z1 Z2 h1
    simp only [prefixMatches]
    exact starAlts_stab p C Z1 Z2 (fun c hc => h1 c hc)

theorem swapTail_mem {α : Type} (n : Nat) (Z1 : List α) (l : List (List α))
    (x : List α) (hx : x ∈ swapTail n Z1 l) :
    ∃ r ∈ l, n ≤ r.length ∧ x = r.take (r.length - n) ++ Z1 := by
  obtain ⟨r, hr, hfr⟩ := List.mem_filterMap.mp hx
  by_cases hn : n ≤ r.length
  · rw [if_pos hn] at hfr
    exact ⟨r, hr, hn, (Option.some.injEq _ _).mp hfr |>.symm⟩
  · rw [if_neg hn] at hfr
    cases hfr

theorem findq_over_map {α β : Type} (l : List α) (f : α → β) (p : β → Bool) :
    (l.map f).find? p = Option.map f (l.find? (fun x => p (f x))) := by
  induction l with
  | nil => rfl
  | cons x l ih =>
    by_cases hp : p (f x) = true
    · have h1 : (List.map f (x :: l)).find? p = some (f x) := by
        rw [List.map_cons]
        exact List.find?_cons_of_pos _ hp
      have h2 : (x :: l).find? (fun y => p (f y)) = some x :=
        List.find?_cons_of_pos _ hp
      rw [h1, h2]
      rfl
    · have h1 : (List.map f (x :: l)).find? p = (List.map f l).find? p := by
        rw [List.map_cons]
        exact List.find?_cons_of_neg _ (by simpa using hp)
      have h2 : (x :: l).find? (fun y => p (f y)) =
          l.find? (fun y => p (f y)) :=
        List.find?_cons_of_neg _ (by simpa using hp)
      rw [h1, h2, ih]

theorem findq_split {α : Type} (p : α → Bool) (l : List α) (a : α)
    (h : l.find? p = some a) :
    ∃ l1 l2, l = l1 ++ a :: l2 ∧ ∀ x ∈ l1, p x = false := by
  induction l with
  | nil => cases h
  | cons x l ih =>
    by_cases hp : p x = true
    · rw [List.find?_cons_of_pos _ hp] at h
      obtain rfl := (Option.some.injEq _ _).mp h
      exact ⟨[], l, rfl, by simp⟩
    · rw [List.find?_cons_of_neg _ (by simpa using hp)] at h
      obtain ⟨l1, l2, heq, hrej⟩ := ih h
      refine ⟨x :: l1, l2, by rw [heq]; rfl, ?_⟩
      intro y hy
      rcases List.mem_cons.mp hy with rfl | hy2
      · simpa using hp
      · exact hrej y hy2

theorem findq_prefix_reject {α : Type} (p : α → Bool) (l1 l2 : List α) (a : α)
    (hrej : ∀ x ∈ l1, p x = false) (ha : p a = true) :
    (l1 ++ a :: l2).find? p = some a := by
  induction l1 with
  | nil => simpa using List.find?_cons_of_pos _ ha
  | cons x l1 ih =>
    rw [List.cons_append, List.find?_cons_of_neg _ (by
      simp [hrej x (List.mem_cons_self _ _)])]
    exact ih (fun y hy => hrej y (List.mem_cons_of_mem _ hy))

theorem take_diff_left {α : Type} (v r : List α) :
    (v ++ r).take ((v ++ r).length - r.length) = v := by
  have h2 : (v ++ r).length - r.length = v.length := by
    simp only [List.length_append]
    omega
  rw [h2, List.take_left]

/-- Stability of the engine step across an exchange of the text beyond
the match and its shared continuation `T`: if the unreachable new tail
starts with an unconsumable character, the step returns the same
match. -/
theorem findEnd_stab (core : RE) (lc : Option Char) (C Z1 Z2 v0 T : List Char)
    (hZ1 : ∀ c, Z1.head? = some c → reCanUse core c = false)
    (hZ2w : isWordO Z2.head? = true)
    (hCl : isWordO C.getLast? = false)
    (hT : v0 ++ T = C) (hTne : T ≠ [])
    (hfe2 : findEnd core lc (C ++ Z2) = some (v0, T ++ Z2)) :
    findEnd core lc (C ++ Z1) = some (v0, T ++ Z1) := by
  obtain ⟨happ, hne, hm, hlead, htrail⟩ := findEnd_some _ _ _ _ _ hfe2
  have hCne : C ≠ [] := by
    intro h
    rw [h] at hT
    rcases List.append_eq_nil.mp hT with ⟨h1, _⟩
    exact hne h1
  have hheads : (C ++ Z1).head? = (C ++ Z2).head? := by
    rw [headq_append _ _ hCne, headq_append _ _ hCne]
  have hlead1 : boundaryB lc (C ++ Z1).head? = true := by
    rw [hheads]
    exact hlead
  unfold findEnd at hfe2 ⊢
  rw [if_pos hlead1]
  rw [if_pos hlead] at hfe2
  unfold candAts at hfe2 ⊢
  rw [findq_over_map] at hfe2 ⊢
  obtain ⟨rstar, hfind2, hfr⟩ := Option.map_eq_some'.mp hfe2
  have hr2 : rstar = T ++ Z2 := congrArg Prod.snd hfr
  subst hr2
  obtain ⟨pre, post, hsplit, hrej⟩ := findq_split _ _ _ hfind2
  have hpm1 : prefixMatches core (C ++ Z1) =
      swapTail Z2.length Z1 (prefixMatches core (C ++ Z2)) :=
    pm_stab core C Z1 Z2 hZ1
  have hkeepstar : Z2.length ≤ (T ++ Z2).length := by
    simp only [List.length_append]
    omega
  have htkstar : (T ++ Z2).take ((T ++ Z2).length - Z2.length) = T :=
    take_diff_left T Z2
  have hpm1b : prefixMatches core (C ++ Z1) =
      swapTail Z2.length Z1 pre ++ (T ++ Z1) :: swapTail Z2.length Z1 post := by
    rw [hpm1, hsplit, swapTail_append,
      swapTail_cons_keep _ _ _ _ hkeepstar, htkstar]
  rw [hpm1b]
  have hacc1 : (fun r => acceptCand ((C ++ Z1).take ((C ++ Z1).length - r.length), r))
      (T ++ Z1) = true := by
    have hc1 : C ++ Z1 = v0 ++ (T ++ Z1) := by
      rw [← hT, List.append_assoc]
    have htk : (C ++ Z1).take ((C ++ Z1).length - (T ++ Z1).length) = v0 := by
      rw [hc1]
      exact take_diff_left v0 (T ++ Z1)
    simp only [htk]
    simp only [acceptCand, Bool.and_eq_true, Bool.not_eq_true']
    constructor
    · simpa using hne
    · rcases T with _ | ⟨t0, tt⟩
      · exact absurd rfl hTne
      · have h1 : ((t0 :: tt) ++ Z1).head? = some t0 := rfl
        have h2 : ((t0 :: tt) ++ Z2).head? = some t0 := rfl
        rw [h1]
        rw [h2] at htrail
        exact htrail
  have hrej1 : ∀ x ∈ swapTail Z2.length Z1 pre,
      (fun r => acceptCand ((C ++ Z1).take ((C ++ Z1).length - r.length), r)) x
        = false := by
    intro x hx
    obtain ⟨r, hrpre, hn, hxr⟩ := swapTail_mem _ _ _ _ hx
    have hrpm2 : r ∈ prefixMatches core (C ++ Z2) := by
      rw [hsplit]
      exact List.mem_append_left _ hrpre
    obtain ⟨vr, hvr, hmr⟩ := (prefixMatches_mem _ _ _).mp hrpm2
    obtain ⟨D, hD, hCD⟩ := suffix_split vr r C Z2 hvr hn
    have htkr : r.take (r.length - Z2.length) = D := by
      rw [hD]
      exact take_diff_left D Z2
    rw [htkr] at hxr
    have hrejr := hrej r hrpre
    have htkr2 : (C ++ Z2).take ((C ++ Z2).length - r.length) = vr := by
      rw [← hvr]
      exact take_diff_left vr r
    simp only [htkr2] at hrejr
    have htkr1 : (C ++ Z1).take ((C ++ Z1).length - (D ++ Z1).length) = vr := by
      have hc1 : C ++ Z1 = vr ++ (D ++ Z1) := by
        rw [hCD, List.append_assoc]
      rw [hc1]
      exact take_diff_left vr (D ++ Z1)
    simp only [hxr]
    rw [htkr1]
    rcases hvre : vr.isEmpty with _ | _
    · -- vr nonempty : compare the trailing boundaries
      have hbd : boundaryB vr.getLast? r.head? = false := by
        simp only [acceptCand, hvre, Bool.not_false, Bool.true_and] at hrejr
        exact hrejr
      rcases D with _ | ⟨d0, dt⟩
      · exfalso
        have hvrC : vr = C := by simpa using hCD.symm
        have hbd2 : boundaryB vr.getLast? Z2.head? = false := by
          rw [hD] at hbd
          simpa using hbd
        simp only [boundaryB, bne_eq_false_iff_eq] at hbd2
        rw [hvrC, hCl] at hbd2
        rw [← hbd2] at hZ2w
        cases hZ2w
      · have h1 : ((d0 :: dt) ++ Z1).head? = some d0 := rfl
        have h2 : r.head? = some d0 := by rw [hD]; rfl
        simp only [acceptCand]
        rw [hvre]
        simp only [Bool.not_false, Bool.true_and]
        rw [show (d0 :: dt ++ Z1) = (d0 :: dt) ++ Z1 from rfl, h1]
        rw [h2] at hbd
        exact hbd
    · simp only [acceptCand, hvre, Bool.not_true, Bool.false_and]
  rw [findq_prefix_reject _ _ _ _ hrej1 hacc1]
  have htkfin : (C ++ Z1).take ((C ++ Z1).length - (T ++ Z1).length) = v0 := by
    have hc1 : C ++ Z1 = v0 ++ (T ++ Z1) := by
      rw [← hT, List.append_assoc]
    rw [hc1]
    exact take_diff_left v0 (T ++ Z1)
  simp only [Option.map_some']
  rw [htkfin]

theorem noMasked_nil : noMasked [] = true := rfl

theorem noMasked_cons_live (c : Char) (bs : List PassBlock) :
    noMasked (PassBlock.live c :: bs) = noMasked bs := by
  simp [noMasked, isMaskedB]

theorem noMasked_cons_kept (v : List Char) (bs : List PassBlock) :
    noMasked (PassBlock.kept v :: bs) = noMasked bs := by
  simp [noMasked, isMaskedB]

theorem noMasked_map_live (cs : List Char) :
    noMasked (cs.map PassBlock.live) = true := by
  induction cs with
  | nil => rfl
  | cons c cs ih =>
    rw [List.map_cons, noMasked_cons_live]
    exact ih

/-- Decomposition of a pass trace at its first replaced block: either
the output equals the input, or both share a prefix `S` after which
the output continues with an unconsumable character and the input with
a word character, the character context before the divergence being
non-word. -/
theorem split_first_masked (core : RE) (validator : List Char → Bool)
    (maskOf : List Char → List Char)
    (hMaskNe : ∀ v, v ≠ [] → maskOf v ≠ [])
    (hMaskNoUse : ∀ v, v ≠ [] → ∀ c, (maskOf v).head? = some c →
      reCanUse core c = false)
    (hFw : ∀ c v2, reMatch core (c :: v2) = true → isWordChar c = true) :
    ∀ (bs : List PassBlock) (lcW : Option Char),
      WfBlocks core validator maskOf lcW bs →
      render bs = origOf bs ∨
      ∃ S Z1 Z2, render bs = S ++ Z1 ∧ origOf bs = S ++ Z2 ∧
        (∀ c, Z1.head? = some c → reCanUse core c = false) ∧
        isWordO Z2.head? = true ∧
        isWordO (lastCtx lcW S) = false := by
  intro bs lcW hwf
  induction hwf with
  | nil => exact Or.inl rfl
  | live lc c bsR hfe hwfR ih =>
    have hrender : render (PassBlock.live c :: bsR) = c :: render bsR := by
      simp [render, renderB]
    have horig : origOf (PassBlock.live c :: bsR) = c :: origOf bsR := by
      simp [origOf, origB]
    rcases ih with h | ⟨S, Z1, Z2, h1, h2, h3, h4, h5⟩
    · left
      rw [hrender, horig, h]
    · right
      refine ⟨c :: S, Z1, Z2, ?_, ?_, h3, h4, ?_⟩
      · rw [hrender, h1]
        rfl
      · rw [horig, h2]
        rfl
      · rwa [lastCtx_cons]
  | kept lc v0 bsR hfe hval hwfR ih =>
    obtain ⟨_, hne0, _, _, _⟩ := findEnd_some _ _ _ _ _ hfe
    have hrender : render (PassBlock.kept v0 :: bsR) = v0 ++ render bsR := by
      simp [render, renderB]
    have horig : origOf (PassBlock.kept v0 :: bsR) = v0 ++ origOf bsR := by
      simp [origOf, origB]
    rcases ih with h | ⟨S, Z1, Z2, h1, h2, h3, h4, h5⟩
    · left
      rw [hrender, horig, h]
    · right
      refine ⟨v0 ++ S, Z1, Z2, ?_, ?_, h3, h4, ?_⟩
      · rw [hrender, h1, List.append_assoc]
      · rw [horig, h2, List.append_assoc]
      · rwa [lastCtx_append, lastCtx_of_ne_nil _ v0 hne0]
  | masked lc v0 bsR hfe hval hwfR ih =>
    obtain ⟨happ0, hne0, hm0, hlead0, htrail0⟩ := findEnd_some _ _ _ _ _ hfe
    right
    refine ⟨[], maskOf v0 ++ render bsR, v0 ++ origOf bsR, ?_, ?_, ?_, ?_, ?_⟩
    · simp [render, renderB]
    · simp [origOf, origB]
    · intro c hc
      rw [headq_append _ _ (hMaskNe v0 hne0)] at hc
      exact hMaskNoUse v0 hne0 c hc
    · rcases v0 with _ | ⟨c0, v0t⟩
      · exact absurd rfl hne0
      · have hh : ((c0 :: v0t) ++ origOf bsR).head? = some c0 := rfl
        rw [hh]
        exact hFw c0 v0t hm0
    · rw [lastCtx_nil]
      rcases v0 with _ | ⟨c0, v0t⟩
      · exact absurd rfl hne0
      · have hh : ((c0 :: v0t) ++ origOf bsR).head? = some c0 := rfl
        rw [hh] at hlead0
        have hcw : isWordO (some c0) = true := hFw c0 v0t hm0
        rcases hbl : isWordO lc with _ | _
        · rfl
        · exfalso
          simp only [boundaryB, hbl, hcw] at hlead0
          simp at hlead0

/-- A scan walks through a stretch of characters at which no candidate
can begin, producing only untouched blocks. -/
theorem scan_skip_junk (core : RE) (val : List Char → Bool)
    (mOf : List Char → List Char) :
    ∀ (junk : List Char) (fuel : Nat) (rest : List Char) (lcS : Option Char),
      (∀ c ∈ junk, reFirstCanUse core c = false) →
      (∀ f2, f2 + junk.length = fuel →
        noMasked (passGo core val mOf f2 (lastCtx lcS junk) rest) = true) →
      noMasked (passGo core val mOf fuel lcS (junk ++ rest)) = true := by
  intro junk
  induction junk with
  | nil =>
    intro fuel rest lcS hj hcont
    have := hcont fuel (by simp)
    rw [lastCtx_nil] at this
    simpa using this
  | cons j junk ih =>
    intro fuel rest lcS hj hcont
    rcases fuel with _ | f
    · show noMasked (passGo core val mOf 0 lcS ((j :: junk) ++ rest)) = true
      exact noMasked_map_live _
    · have hfe : findEnd core lcS (j :: (junk ++ rest)) = none :=
        findEnd_none_of_head core lcS j (junk ++ rest)
          (hj j (List.mem_cons_self _ _))
      have hstep : passGo core val mOf (f + 1) lcS ((j :: junk) ++ rest) =
          .live j :: passGo core val mOf f (some j) (junk ++ rest) := by
        show passGo core val mOf (f + 1) lcS (j :: (junk ++ rest)) =
          .live j :: passGo core val mOf f (some j) (junk ++ rest)
        simp only [passGo, hfe]
      rw [hstep, noMasked_cons_live]
      refine ih f rest (some j) (fun c hc => hj c (List.mem_cons_of_mem _ hc)) ?_
      intro f2 hf2
      have hf3 : f2 + (j :: junk).length = f + 1 := by
        simp only [List.length_cons] at hf2 ⊢
        omega
      have := hcont f2 hf3
      rwa [lastCtx_cons] at this

/-- Re-scanning the output of a pass of the same pattern and validator
finds no validator-passing match: every replaced stretch is
unenterable, every kept match is re-found identically and re-rejected,
and no new match appears elsewhere. -/
theorem sync_main (core : RE) (validator : List Char → Bool)
    (maskOf mOf2 : List Char → List Char)
    (hMaskNe : ∀ v, v ≠ [] → maskOf v ≠ [])
    (hMaskNoUse : ∀ v, v ≠ [] → ∀ c, (maskOf v).head? = some c →
      reCanUse core c = false)
    (hMaskNoFirst : ∀ v, v ≠ [] → ∀ c ∈ maskOf v, reFirstCanUse core c = false)
    (hMaskLastNw : ∀ v, v ≠ [] → isWordO (maskOf v).getLast? = false)
    (hFw : ∀ c v2, reMatch core (c :: v2) = true → isWordChar c = true)
    (hLw : ∀ v, v ≠ [] → reMatch core v = true → isWordO v.getLast? = true)
    (HM : ∀ v, v ≠ [] → MaskSafe core (maskOf v)) :
    ∀ (fuel : Nat) (bs : List PassBlock) (lcW : Option Char),
      WfBlocks core validator maskOf lcW bs →
      ∀ lcS, (lcS = lcW ∨
        (isWordO lcS = false ∧ isWordO ((origOf bs).head?) = false)) →
      noMasked (passGo core validator mOf2 fuel lcS (render bs)) = true := by
  intro fuel
  induction fuel using Nat.strong_induction_on with
  | _ fuel ihF =>
  intro bs lcW hwf lcS H
  rcases fuel with _ | g
  · exact noMasked_map_live _
  cases hwf with
  | nil =>
    show noMasked (passGo core validator mOf2 (g + 1) lcS (render [])) = true
    rfl
  | live lc c bsR hfe hwfR =>
    have hrender : render (PassBlock.live c :: bsR) = c :: render bsR := by
      simp [render, renderB]
    have hfeS : findEnd core lcS (c :: render bsR) = none := by
      rcases H with heq | ⟨hS, hO⟩
      · subst heq
        rcases hfs : findEnd core lcS (c :: render bsR) with _ | ⟨v, r⟩
        · rfl
        · exfalso
          obtain ⟨happ, hne, hm, hlead, htrail⟩ := findEnd_some _ _ _ _ _ hfs
          have hcanv := reMatch_chars core _ hm
          have hwfFull : WfBlocks core validator maskOf lcS
              (PassBlock.live c :: bsR) := WfBlocks.live _ c bsR hfe hwfR
          have happ2 : v ++ r = render (PassBlock.live c :: bsR) := by
            rw [hrender]
            exact happ
          obtain ⟨w2, hw2, htr⟩ := px core core validator maskOf HM
            (PassBlock.live c :: bsR) lcS hwfFull v r happ2 hcanv
          have horig : origOf (PassBlock.live c :: bsR) = c :: origOf bsR := by
            simp [origOf, origB]
          rw [horig] at hw2
          have hgl : lastCtx lcS v = v.getLast? := lastCtx_of_ne_nil _ v hne
          have htrail2 : boundaryB v.getLast? w2.head? = true := by
            have h1 : boundaryB (lastCtx lcS v) r.head? = true := by rwa [hgl]
            have h2 := htr h1
            rwa [hgl] at h2
          have hlead2 : boundaryB lcS (c :: origOf bsR).head? = true := by
            have h1 : (c :: render bsR).head? = some c := rfl
            have h2 : (c :: origOf bsR).head? = some c := rfl
            rw [h2]
            rw [h1] at hlead
            exact hlead
          exact findEnd_none core lcS (c :: origOf bsR) v w2 hfe hw2 hm hne
            hlead2 htrail2
      · have hcW : isWordO (some c) = false := by
          have hh : (origOf (PassBlock.live c :: bsR)).head? = some c := by
            simp [origOf, origB]
          rwa [hh] at hO
        have hbd : boundaryB lcS (c :: render bsR).head? = false := by
          show boundaryB lcS (some c) = false
          simp [boundaryB, hS, hcW]
        unfold findEnd
        rw [hbd]
        simp
    have hstep : passGo core validator mOf2 (g + 1) lcS (c :: render bsR) =
        .live c :: passGo core validator mOf2 g (some c) (render bsR) := by
      simp only [passGo, hfeS]
    rw [hrender, hstep, noMasked_cons_live]
    exact ihF g (by omega) bsR (some c) hwfR (some c) (Or.inl rfl)
  | kept lc v0 bsR hfe hval hwfR =>
    obtain ⟨happ0, hne0, hm0, hlead0, htrail0⟩ := findEnd_some _ _ _ _ _ hfe
    have hlcS : lcS = lcW := by
      rcases H with heq | ⟨hS, hO⟩
      · exact heq
      · exfalso
        rcases v0 with _ | ⟨c0, v0t⟩
        · exact absurd rfl hne0
        · have hh : (origOf (PassBlock.kept (c0 :: v0t) :: bsR)).head? =
              some c0 := by
            simp [origOf, origB]
          rw [hh] at hO
          have := hFw c0 v0t hm0
          rw [show isWordO (some c0) = isWordChar c0 from rfl, this] at hO
          cases hO
    subst hlcS
    have hrender : render (PassBlock.kept v0 :: bsR) = v0 ++ render bsR := by
      simp [render, renderB]
    have hsplit := split_first_masked core validator maskOf hMaskNe hMaskNoUse
      hFw bsR v0.getLast? hwfR
    have hfeS : findEnd core lcS (v0 ++ render bsR) = some (v0, render bsR) := by
      rcases hsplit with heqr | ⟨S, Z1, Z2, h1, h2, h3, h4, h5⟩
      · rw [heqr]
        exact hfe
      · have hSne : S ≠ [] := by
          intro h
          subst h
          rw [lastCtx_nil] at h5
          rw [hLw v0 hne0 hm0] at h5
          cases h5
        have hCl : isWordO (v0 ++ S).getLast? = false := by
          rw [List.getLast?_append_of_ne_nil v0 hSne]
          rwa [lastCtx_of_ne_nil _ S hSne] at h5
        have hfe2 : findEnd core lcS ((v0 ++ S) ++ Z2) = some (v0, S ++ Z2) := by
          rw [h2] at hfe
          rw [List.append_assoc]
          exact hfe
        have hstab := findEnd_stab core lcS (v0 ++ S) Z1 Z2 v0 S h3 h4 hCl rfl
          hSne hfe2
        rw [h1, ← List.append_assoc]
        exact hstab
    rcases v0 with _ | ⟨c0, v0t⟩
    · exact absurd rfl hne0
    have hfeS2 : findEnd core lcS (c0 :: (v0t ++ render bsR)) =
        some (c0 :: v0t, render bsR) := hfeS
    have hvalf : validator (c0 :: v0t) = false := hval
    have hstep : passGo core validator mOf2 (g + 1) lcS
        ((c0 :: v0t) ++ render bsR) =
        .kept (c0 :: v0t) :: passGo core validator mOf2 g
          (c0 :: v0t).getLast? (render bsR) := by
      show passGo core validator mOf2 (g + 1) lcS (c0 :: (v0t ++ render bsR)) = _
      simp only [passGo, hfeS2, hvalf, Bool.false_eq_true, if_false]
    rw [hrender, hstep, noMasked_cons_kept]
    exact ihF g (by omega) bsR (c0 :: v0t).getLast? hwfR (c0 :: v0t).getLast?
      (Or.inl rfl)
  | masked lc v0 bsR hfe hval hwfR =>
    obtain ⟨happ0, hne0, hm0, hlead0, htrail0⟩ := findEnd_some _ _ _ _ _ hfe
    have hrender : render (PassBlock.masked v0 (maskOf v0) :: bsR) =
        maskOf v0 ++ render bsR := by
      simp [render, renderB]
    rw [hrender]
    refine scan_skip_junk core validator mOf2 (maskOf v0) (g + 1) (render bsR)
      lcS (hMaskNoFirst v0 hne0) ?_
    intro f2 hf2
    have hmlen : 1 ≤ (maskOf v0).length :=
      List.length_pos.mpr (hMaskNe v0 hne0)
    refine ihF f2 (by omega) bsR v0.getLast? hwfR (lastCtx lcS (maskOf v0))
      (Or.inr ⟨?_, ?_⟩)
    · rw [lastCtx_of_ne_nil _ _ (hMaskNe v0 hne0)]
      exact hMaskLastNw v0 hne0
    · have hvl : isWordO v0.getLast? = true := hLw v0 hne0 hm0
      rcases hor : isWordO (origOf bsR).head? with _ | _
      · rfl
      · exfalso
        simp only [boundaryB, hvl, hor] at htrail0
        simp at htrail0

theorem noInterior_sound (p : RE) (m : List Char) (h : noInterior p m = true) :
    ∀ u1 v1 w1, m = u1 ++ v1 ++ w1 → u1 ≠ [] → v1 ≠ [] → w1 ≠ [] →
    reMatch p v1 = true → boundaryB u1.getLast? v1.head? = true →
    boundaryB v1.getLast? w1.head? = true → False := by
  intro u1 v1 w1 hm hu hv hw hmatch hb1 hb2
  have hul : 1 ≤ u1.length := List.length_pos.mpr hu
  have hvl : 1 ≤ v1.length := List.length_pos.mpr hv
  have hwl : 1 ≤ w1.length := List.length_pos.mpr hw
  have hml : m.length = u1.length + (v1.length + w1.length) := by
    rw [hm]
    simp [List.length_append]
  have hi : u1.length - 1 ∈ List.range m.length := by
    rw [List.mem_range]
    omega
  have hj : v1.length - 1 ∈ List.range m.length := by
    rw [List.mem_range]
    omega
  unfold noInterior at h
  rw [List.all_eq_true] at h
  have hI := h _ hi
  rw [List.all_eq_true] at hI
  have hIJ := hI _ hj
  have hiu : u1.length - 1 + 1 = u1.length := by omega
  have hjv : v1.length - 1 + 1 = v1.length := by omega
  rw [hiu, hjv] at hIJ
  have htk1 : m.take u1.length = u1 := by
    rw [hm, List.append_assoc]
    exact List.take_left u1 _
  have hdp1 : m.drop u1.length = v1 ++ w1 := by
    rw [hm, List.append_assoc]
    exact List.drop_left u1 _
  rw [htk1, hdp1, List.take_left v1 w1, List.drop_left v1 w1] at hIJ
  rw [hmatch, hb1, hb2] at hIJ
  have hv1e : v1.isEmpty = false := by
    rcases v1 with _ | _
    · exact absurd rfl hv
    · rfl
  have hw1e : w1.isEmpty = false := by
    rcases w1 with _ | _
    · exact absurd rfl hw
    · rfl
  rw [hv1e, hw1e] at hIJ
  simp at hIJ

theorem replicate_headq {α : Type} (n : Nat) (a : α) (h : 1 ≤ n) :
    (List.replicate n a).head? = some a := by
  rcases n with _ | n
  · omega
  · rfl

theorem replicate_getLastq {α : Type} (n : Nat) (a : α) (h : 1 ≤ n) :
    (List.replicate n a).getLast? = some a := by
  induction n with
  | zero => omega
  | succ m ih =>
    rcases m with _ | m2
    · rfl
    · have hsplit : List.replicate (m2 + 2) a = [a] ++ List.replicate (m2 + 1) a := by
        rfl
      rw [hsplit, List.getLast?_append_of_ne_nil [a] (by simp)]
      exact ih (by omega)

/-- The `*`-run mask is safe for any pattern that cannot consume `*`. -/
theorem maskSafe_star (p : RE) (hstar : reCanUse p '*' = false) :
    ∀ v, v ≠ [] → MaskSafe p (starMask v) := by
  intro v hv
  have hn : 1 ≤ v.length := List.length_pos.mpr hv
  refine ⟨?_, ?_, ?_, ?_, ?_, ?_⟩
  · intro h
    have := congrArg List.length h
    simp only [starMask, List.length_replicate, List.length_nil] at this
    omega
  · rw [starMask, replicate_headq _ _ hn]
    decide
  · rw [starMask, replicate_getLastq _ _ hn]
    decide
  · intro c hc
    rw [starMask, replicate_headq _ _ hn] at hc
    obtain rfl := (Option.some.injEq _ _).mp hc
    exact hstar
  · intro c hc
    rw [starMask, replicate_getLastq _ _ hn] at hc
    obtain rfl := (Option.some.injEq _ _).mp hc
    exact hstar
  · intro u1 v1 w1 hm hu hne hw hmatch hb1 hb2
    rcases v1 with _ | ⟨c1, t1⟩
    · exact absurd rfl hne
    · have hc1 : c1 ∈ starMask v := by
        rw [hm]
        simp
      rw [starMask] at hc1
      have hc1e : c1 = '*' := List.eq_of_mem_replicate hc1
      have hcan := reMatch_chars p _ hmatch c1 (List.mem_cons_self _ _)
      rw [hc1e, hstar] at hcan
      cases hcan

/-- The fixed redaction token is safe for any pattern that cannot
consume its brackets and has no accepted span strictly inside it. -/
theorem maskSafe_redact (p : RE) (h1 : reCanUse p '[' = false)
    (h2 : reCanUse p ']' = false) (hni : noInterior p redactChars = true) :
    ∀ v, v ≠ [] → MaskSafe p (redactMask v) := by
  intro v _
  refine ⟨?_, ?_, ?_, ?_, ?_, ?_⟩
  · intro h
    cases h
  · show isWordO redactChars.head? = false
    decide
  · show isWordO redactChars.getLast? = false
    decide
  · intro c hc
    have : c = '[' := by
      have hh : (redactMask v).head? = some '[' := rfl
      rw [hh] at hc
      exact ((Option.some.injEq _ _).mp hc).symm
    rw [this]
    exact h1
  · intro c hc
    have : c = ']' := by
      have hh : (redactMask v).getLast? = some ']' := by
        show redactChars.getLast? = some ']'
        decide
      rw [hh] at hc
      exact ((Option.some.injEq _ _).mp hc).symm
    rw [this]
    exact h2
  · exact noInterior_sound p redactChars hni

theorem reFirstCanUse_seq_skip (a b : RE) (c : Char) (h : reMatch a [] = false) :
    reFirstCanUse (.seq a b) c = reFirstCanUse a c := by
  simp [reFirstCanUse, h]

/-- Only a digit can begin a creditCard match. -/
theorem ccFirst (c : Char) : reFirstCanUse ccRE c = digitC c := by
  show reFirstCanUse
    (.seq (.seq (powRE ccGrp 3) (powRE (.cls digitC) 3)) (.cls digitC)) c =
    digitC c
  rw [reFirstCanUse_seq_skip _ _ _ (by decide)]
  rw [reFirstCanUse_seq_skip _ _ _ (by decide)]
  rw [show powRE ccGrp 3 = .seq ccGrp (powRE ccGrp 2) from rfl]
  rw [reFirstCanUse_seq_skip _ _ _ (by decide)]
  rw [show ccGrp = .seq (powRE (.cls digitC) 4) (optRE (.cls sepCC)) from rfl]
  rw [reFirstCanUse_seq_skip _ _ _ (by decide)]
  rw [show powRE (.cls digitC) 4 =
    .seq (.cls digitC) (powRE (.cls digitC) 3) from rfl]
  rw [reFirstCanUse_seq_skip _ _ _ (by decide)]
  rfl

theorem digit_word (c : Char) (h : digitC c = true) : isWordChar c = true := by
  simp only [digitC] at h
  simp [isWordChar, isDigitChar, h]

/-- A creditCard match starts with a word character. -/
theorem cc_first_word (c : Char) (v2 : List Char)
    (h : reMatch ccRE (c :: v2) = true) : isWordChar c = true := by
  have h1 := reMatch_head ccRE c v2 h
  rw [ccFirst] at h1
  exact digit_word c h1

theorem reMatch_last_cls (a : RE) (p : Char → Bool) (v : List Char)
    (h : reMatch (.seq a (.cls p)) v = true) :
    ∃ c u, v = u ++ [c] ∧ p c = true := by
  rw [reMatch_iff] at h
  simp only [prefixMatches, List.mem_flatMap] at h
  obtain ⟨r, hra, hrc⟩ := h
  rcases r with _ | ⟨c, t⟩
  · simp [prefixMatches] at hrc
  · simp only [prefixMatches] at hrc
    by_cases hc : p c = true
    · rw [if_pos hc] at hrc
      simp only [List.mem_singleton] at hrc
      subst hrc
      obtain ⟨u, hu, _⟩ := (prefixMatches_mem a v _).mp hra
      exact ⟨c, u, hu.symm, hc⟩
    · rw [if_neg hc] at hrc
      simp at hrc

/-- A creditCard match ends with a word character. -/
theorem cc_last_word (v : List Char) (_hne : v ≠ [])
    (h : reMatch ccRE v = true) : isWordO v.getLast? = true := by
  obtain ⟨c, u, hv, hc⟩ := reMatch_last_cls _ _ v h
  rw [hv, List.getLast?_append_of_ne_nil u (by simp)]
  exact digit_word c hc

/-- A reported finding of a scan yields an accepted span. -/
theorem scan_trigger (p : RE) (val : List Char → Bool)
    (mOf : List Char → List Char) (t : List Char)
    (h : noMasked (passGo p val mOf (t.length + 1) none t) = false) :
    SpanCtx p t := by
  have hwf := wf_passGo p val mOf (t.length + 1) none t (by omega)
  unfold noMasked at h
  rcases hany : (passGo p val mOf (t.length + 1) none t).any isMaskedB with _ | _
  · rw [hany] at h
    cases h
  · obtain ⟨b, hbmem, hbm⟩ := List.any_eq_true.mp hany
    cases b with
    | live c => cases hbm
    | kept v => cases hbm
    | masked v out =>
      obtain ⟨u, w, hspan, hne, hm, hval, hlead, htrail⟩ :=
        masked_gives_span p val mOf _ none hwf v out hbmem
      rw [origOf_passGo] at hspan
      exact ⟨u, v, w, hspan, hne, hm, hlead, htrail⟩

/-- An accepted span in the output of a pass yields one in its input. -/
theorem span_pull (corep coreq : RE) (validator : List Char → Bool)
    (mk : List Char → List Char)
    (HM : ∀ v, v ≠ [] → MaskSafe corep (mk v)) (cs : List Char)
    (h : SpanCtx corep (runPass coreq validator mk cs)) : SpanCtx corep cs := by
  obtain ⟨u, v, w, hspan, hne, hm, hlead, htrail⟩ := h
  have hwf := wf_passGo coreq validator mk (cs.length + 1) none cs (by omega)
  obtain ⟨u2, w2, hspan2, hlead2, htrail2, _⟩ := span_back_main corep coreq
    validator mk HM _ none hwf u v w hspan hne hm hlead htrail
  rw [origOf_passGo] at hspan2
  exact ⟨u2, v, w2, hspan2, hne, hm, hlead2, htrail2⟩

/-- No accepted span of a pattern survives its own all-masking pass. -/
theorem span_own_kill (p : RE) (mk : List Char → List Char)
    (HM : ∀ v, v ≠ [] → MaskSafe p (mk v)) (cs : List Char)
    (h : SpanCtx p (runPass p trueV mk cs)) : False := by
  obtain ⟨u, v, w, hspan, hne, hm, hlead, htrail⟩ := h
  have hwf := wf_passGo p trueV mk (cs.length + 1) none cs (by omega)
  obtain ⟨u2, w2, hspan2, hlead2, htrail2, hdisj⟩ := span_back_main p p trueV
    mk HM _ none hwf u v w hspan hne hm hlead htrail
  rcases hdisj with hnone | ⟨v0, hv0, _⟩
  · refine findEnd_none p (lastCtx none u2) (v ++ w2) v w2 hnone rfl hm hne
      ?_ htrail2
    rw [headq_append v w2 hne]
    exact hlead2
  · simp [trueV] at hv0

/-- Pulling an accepted span back through any sequence of passes. -/
theorem span_pull_fold (p : RE) (mk : List Char → List Char)
    (HM : ∀ v, v ≠ [] → MaskSafe p (mk v)) :
    ∀ (L : List (RE × (List Char → Bool))) (t : List Char),
      SpanCtx p (L.foldl (fun acc pv => runPass pv.1 pv.2 mk acc) t) →
      SpanCtx p t := by
  intro L
  induction L with
  | nil =>
    intro t h
    exact h
  | cons pv L ih =>
    intro t h
    have h2 := ih (runPass pv.1 pv.2 mk t) (by simpa [List.foldl_cons] using h)
    exact span_pull p pv.1 pv.2 mk HM t h2

/-- A re-scan of a pattern whose own masking pass ran earlier (followed
by any later passes) reports nothing. -/
theorem scan_clean_generic (p : RE) (valScan : List Char → Bool)
    (mk : List Char → List Char)
    (HM : ∀ v, v ≠ [] → MaskSafe p (mk v)) (L : List (RE × (List Char → Bool)))
    (s : List Char) :
    noMasked (passGo p valScan (fun v => v)
      ((L.foldl (fun acc pv => runPass pv.1 pv.2 mk acc)
        (runPass p trueV mk s)).length + 1) none
      (L.foldl (fun acc pv => runPass pv.1 pv.2 mk acc)
        (runPass p trueV mk s))) = true := by
  rcases hb : noMasked (passGo p valScan (fun v => v)
      ((L.foldl (fun acc pv => runPass pv.1 pv.2 mk acc)
        (runPass p trueV mk s)).length + 1) none
      (L.foldl (fun acc pv => runPass pv.1 pv.2 mk acc)
        (runPass p trueV mk s))) with _ | _
  · exfalso
    have hsp := scan_trigger p valScan (fun v => v) _ hb
    have hsp2 := span_pull_fold p mk HM L _ hsp
    exact span_own_kill p mk HM s hsp2
  · exact hb

/-- A re-scan of creditCard right after the creditCard pass reports
nothing: the validator-passing matches were replaced, the rejected ones
are re-found and re-rejected. -/
theorem scan_clean_cc (mk : List Char → List Char)
    (HMcc : ∀ v, v ≠ [] → MaskSafe ccRE (mk v))
    (hNoFirst : ∀ v, v ≠ [] → ∀ c ∈ mk v, reFirstCanUse ccRE c = false)
    (s : List Char) (n : Nat) :
    noMasked (passGo ccRE isValidCreditCard (fun v => v) n none
      (runPass ccRE isValidCreditCard mk s)) = true := by
  have hwf := wf_passGo ccRE isValidCreditCard mk (s.length + 1) none s
    (by omega)
  exact sync_main ccRE isValidCreditCard mk (fun v => v)
    (fun v hv => (HMcc v hv).ne)
    (fun v hv => (HMcc v hv).headNoUse)
    hNoFirst
    (fun v hv => (HMcc v hv).lastNonWord)
    cc_first_word cc_last_word HMcc n _ none hwf none (Or.inl rfl)

/-- Safety of the chosen masking mode for a pattern. -/
theorem maskFn_safe (p : RE) (b : Bool) (hstar : reCanUse p '*' = false)
    (h1 : reCanUse p '[' = false) (h2 : reCanUse p ']' = false)
    (hni : noInterior p redactChars = true) :
    ∀ v, v ≠ [] → MaskSafe p (maskFn b v) := by
  rcases b with _ | _
  · exact maskSafe_redact p h1 h2 hni
  · exact maskSafe_star p hstar

/-- Neither masking mode can begin a creditCard match. -/
theorem maskFn_nofirst_cc (b : Bool) :
    ∀ v, v ≠ [] → ∀ c ∈ maskFn b v, reFirstCanUse ccRE c = false := by
  rcases b with _ | _
  · intro v hv c hc
    have hall : ∀ x ∈ redactChars, (!(reFirstCanUse ccRE x)) = true :=
      List.all_eq_true.mp (by decide)
    have := hall c hc
    simpa using this
  · intro v hv c hc
    have hc2 : c ∈ List.replicate v.length '*' := hc
    have hce : c = '*' := List.eq_of_mem_replicate hc2
    rw [hce]
    decide

theorem not_eq_false_of_true {b : Bool} (h : b = true) : ¬(!b) = true := by
  rw [h]
  simp

/-- C7: for every text and either masking mode ('*' length-preserving
masks or the fixed redaction token), re-scanning the sanitized text
reports no finding for any of the nine scanner patterns:
scan(sanitize(text)) is empty. -/
theorem c7_theorem (t : List Char) (b : Bool) :
    scanFindsPHI (sanitizePHI (maskFn b) t) = false := by
  have HM1 : ∀ v, v ≠ [] → MaskSafe ssnRE (maskFn b v) :=
    maskFn_safe ssnRE b (by decide) (by decide) (by decide) (by decide)
  have HM2 : ∀ v, v ≠ [] → MaskSafe mrnRE (maskFn b v) :=
    maskFn_safe mrnRE b (by decide) (by decide) (by decide) (by decide)
  have HM3 : ∀ v, v ≠ [] → MaskSafe phoneRE (maskFn b v) :=
    maskFn_safe phoneRE b (by decide) (by decide) (by decide) (by decide)
  have HM4 : ∀ v, v ≠ [] → MaskSafe emailRE (maskFn b v) :=
    maskFn_safe emailRE b (by decide) (by decide) (by decide) (by decide)
  have HM5 : ∀ v, v ≠ [] → MaskSafe dobRE (maskFn b v) :=
    maskFn_safe dobRE b (by decide) (by decide) (by decide) (by decide)
  have HM6 : ∀ v, v ≠ [] → MaskSafe addressRE (maskFn b v) :=
    maskFn_safe addressRE b (by decide) (by decide) (by decide) (by decide)
  have HM7 : ∀ v, v ≠ [] → MaskSafe insuranceRE (maskFn b v) :=
    maskFn_safe insuranceRE b (by decide) (by decide) (by decide) (by decide)
  have HM8 : ∀ v, v ≠ [] → MaskSafe patientIdRE (maskFn b v) :=
    maskFn_safe patientIdRE b (by decide) (by decide) (by decide) (by decide)
  have HM9 : ∀ v, v ≠ [] → MaskSafe ccRE (maskFn b v) :=
    maskFn_safe ccRE b (by decide) (by decide) (by decide) (by decide)
  unfold scanFindsPHI
  rw [List.any_eq_false]
  intro pv hpv
  simp only [phiPatterns, List.mem_cons, List.not_mem_nil, or_false] at hpv
  rcases hpv with rfl | rfl | rfl | rfl | rfl | rfl | rfl | rfl | rfl
  · dsimp only
    have heq : sanitizePHI (maskFn b) t =
        List.foldl (fun acc pv => runPass pv.1 pv.2 (maskFn b) acc)
          (runPass ssnRE trueV (maskFn b) t)
          ([(mrnRE, trueV), (phoneRE, trueV), (emailRE, trueV), (dobRE, trueV), (addressRE, trueV), (insuranceRE, trueV), (patientIdRE, trueV), (ccRE, isValidCreditCard)] : List (RE × (List Char → Bool))) := by
      simp only [sanitizePHI, phiPatterns, List.foldl_cons, List.foldl_nil]
    rw [heq]
    apply not_eq_false_of_true
    exact scan_clean_generic ssnRE trueV (maskFn b) HM1
      ([(mrnRE, trueV), (phoneRE, trueV), (emailRE, trueV), (dobRE, trueV), (addressRE, trueV), (insuranceRE, trueV), (patientIdRE, trueV), (ccRE, isValidCreditCard)] : List (RE × (List Char → Bool))) t
  · dsimp only
    have heq : sanitizePHI (maskFn b) t =
        List.foldl (fun acc pv => runPass pv.1 pv.2 (maskFn b) acc)
          (runPass mrnRE trueV (maskFn b) (runPass ssnRE trueV (maskFn b) t))
          ([(phoneRE, trueV), (emailRE, trueV), (dobRE, trueV), (addressRE, trueV), (insuranceRE, trueV), (patientIdRE, trueV), (ccRE, isValidCreditCard)] : List (RE × (List Char → Bool))) := by
      simp only [sanitizePHI, phiPatterns, List.foldl_cons, List.foldl_nil]
    rw [heq]
    apply not_eq_false_of_true
    exact scan_clean_generic mrnRE trueV (maskFn b) HM2
      ([(phoneRE, trueV), (emailRE, trueV), (dobRE, trueV), (addressRE, trueV), (insuranceRE, trueV), (patientIdRE, trueV), (ccRE, isValidCreditCard)] : List (RE × (List Char → Bool))) (runPass ssnRE trueV (maskFn b) t)
  · dsimp only
    have heq : sanitizePHI (maskFn b) t =
        List.foldl (fun acc pv => runPass pv.1 pv.2 (maskFn b) acc)
          (runPass phoneRE trueV (maskFn b) (runPass mrnRE trueV (maskFn b) (runPass ssnRE trueV (maskFn b) t)))
          ([(emailRE, trueV), (dobRE, trueV), (addressRE, trueV), (insuranceRE, trueV), (patientIdRE, trueV), (ccRE, isValidCreditCard)] : List (RE × (List Char → Bool))) := by
      simp only [sanitizePHI, phiPatterns, List.foldl_cons, List.foldl_nil]
    rw [heq]
    apply not_eq_false_of_true
    exact scan_clean_generic phoneRE trueV (maskFn b) HM3
      ([(emailRE, trueV), (dobRE, trueV), (addressRE, trueV), (insuranceRE, trueV), (patientIdRE, trueV), (ccRE, isValidCreditCard)] : List (RE × (List Char → Bool))) (runPass mrnRE trueV (maskFn b) (runPass ssnRE trueV (maskFn b) t))
  · dsimp only
    have heq : sanitizePHI (maskFn b) t =
        List.foldl (fun acc pv => runPass pv.1 pv.2 (maskFn b) acc)
          (runPass emailRE trueV (maskFn b) (runPass phoneRE trueV (maskFn b) (runPass mrnRE trueV (maskFn b) (runPass ssnRE trueV (maskFn b) t))))
          ([(dobRE, trueV), (addressRE, trueV), (insuranceRE, trueV), (patientIdRE, trueV), (ccRE, isValidCreditCard)] : List (RE × (List Char → Bool))) := by
      simp only [sanitizePHI, phiPatterns, List.foldl_cons, List.foldl_nil]
    rw [heq]
    apply not_eq_false_of_true
    exact scan_clean_generic emailRE trueV (maskFn b) HM4
      ([(dobRE, trueV), (addressRE, trueV), (insuranceRE, trueV), (patientIdRE, trueV), (ccRE, isValidCreditCard)] : List (RE × (List Char → Bool))) (runPass phoneRE trueV (maskFn b) (runPass mrnRE trueV (maskFn b) (runPass ssnRE trueV (maskFn b) t)))
  · dsimp only
    have heq : sanitizePHI (maskFn b) t =
        List.foldl (fun acc pv => runPass pv.1 pv.2 (maskFn b) acc)
          (runPass dobRE trueV (maskFn b) (runPass emailRE trueV (maskFn b) (runPass phoneRE trueV (maskFn b) (runPass mrnRE trueV (maskFn b) (runPass ssnRE trueV (maskFn b) t)))))
          ([(addressRE, trueV), (insuranceRE, trueV), (patientIdRE, trueV), (ccRE, isValidCreditCard)] : List (RE × (List Char → Bool))) := by
      simp only [sanitizePHI, phiPatterns, List.foldl_cons, List.foldl_nil]
    rw [heq]
    apply not_eq_false_of_true
    exact scan_clean_generic dobRE trueV (maskFn b) HM5
      ([(addressRE, trueV), (insuranceRE, trueV), (patientIdRE, trueV), (ccRE, isValidCreditCard)] : List (RE × (List Char → Bool))) (runPass emailRE trueV (maskFn b) (runPass phoneRE trueV (maskFn b) (runPass mrnRE trueV (maskFn b) (runPass ssnRE trueV (maskFn b) t))))
  · dsimp only
    have heq : sanitizePHI (maskFn b) t =
        List.foldl (fun acc pv => runPass pv.1 pv.2 (maskFn b) acc)
          (runPass addressRE trueV (maskFn b) (runPass dobRE trueV (maskFn b) (runPass emailRE trueV (maskFn b) (runPass phoneRE trueV (maskFn b) (runPass mrnRE trueV (maskFn b) (runPass ssnRE trueV (maskFn b) t))))))
          ([(insuranceRE, trueV), (patientIdRE, trueV), (ccRE, isValidCreditCard)] : List (RE × (List Char → Bool))) := by
      simp only [sanitizePHI, phiPatterns, List.foldl_cons, List.foldl_nil]
    rw [heq]
    apply not_eq_false_of_true
    exact scan_clean_generic addressRE trueV (maskFn b) HM6
      ([(insuranceRE, trueV), (patientIdRE, trueV), (ccRE, isValidCreditCard)] : List (RE × (List Char → Bool))) (runPass dobRE trueV (maskFn b) (runPass emailRE trueV (maskFn b) (runPass phoneRE trueV (maskFn b) (runPass mrnRE trueV (maskFn b) (runPass ssnRE trueV (maskFn b) t)))))
  · dsimp only
    have heq : sanitizePHI (maskFn b) t =
        List.foldl (fun acc pv => runPass pv.1 pv.2 (maskFn b) acc)
          (runPass insuranceRE trueV (maskFn b) (runPass addressRE trueV (maskFn b) (runPass dobRE trueV (maskFn b) (runPass emailRE trueV (maskFn b) (runPass phoneRE trueV (maskFn b) (runPass mrnRE trueV (maskFn b) (runPass ssnRE trueV (maskFn b) t)))))))
          ([(patientIdRE, trueV), (ccRE, isValidCreditCard)] : List (RE × (List Char → Bool))) := by
      simp only [sanitizePHI, phiPatterns, List.foldl_cons, List.foldl_nil]
    rw [heq]
    apply not_eq_false_of_true
    exact scan_clean_generic insuranceRE trueV (maskFn b) HM7
      ([(patientIdRE, trueV), (ccRE, isValidCreditCard)] : List (RE × (List Char → Bool))) (runPass addressRE trueV (maskFn b) (runPass dobRE trueV (maskFn b) (runPass emailRE trueV (maskFn b) (runPass phoneRE trueV (maskFn b) (runPass mrnRE trueV (maskFn b) (runPass ssnRE trueV (maskFn b) t))))))
  · dsimp only
    have heq : sanitizePHI (maskFn b) t =
        List.foldl (fun acc pv => runPass pv.1 pv.2 (maskFn b) acc)
          (runPass patientIdRE trueV (maskFn b) (runPass insuranceRE trueV (maskFn b) (runPass addressRE trueV (maskFn b) (runPass dobRE trueV (maskFn b) (runPass emailRE trueV (maskFn b) (runPass phoneRE trueV (maskFn b) (runPass mrnRE trueV (maskFn b) (runPass ssnRE trueV (maskFn b) t))))))))
          ([(ccRE, isValidCreditCard)] : List (RE × (List Char → Bool))) := by
      simp only [sanitizePHI, phiPatterns, List.foldl_cons, List.foldl_nil]
    rw [heq]
    apply not_eq_false_of_true
    exact scan_clean_generic patientIdRE trueV (maskFn b) HM8
      ([(ccRE, isValidCreditCard)] : List (RE × (List Char → Bool))) (runPass insuranceRE trueV (maskFn b) (runPass addressRE trueV (maskFn b) (runPass dobRE trueV (maskFn b) (runPass emailRE trueV (maskFn b) (runPass phoneRE trueV (maskFn b) (runPass mrnRE trueV (maskFn b) (runPass ssnRE trueV (maskFn b) t)))))))
  · dsimp only
    have heq : sanitizePHI (maskFn b) t =
        runPass ccRE isValidCreditCard (maskFn b) (runPass patientIdRE trueV (maskFn b) (runPass insuranceRE trueV (maskFn b) (runPass addressRE trueV (maskFn b) (runPass dobRE trueV (maskFn b) (runPass emailRE trueV (maskFn b) (runPass phoneRE trueV (maskFn b) (runPass mrnRE trueV (maskFn b) (runPass ssnRE trueV (maskFn b) t)))))))) := by
      simp only [sanitizePHI, phiPatterns, List.foldl_cons, List.foldl_nil]
    rw [heq]
    apply not_eq_false_of_true
    exact scan_clean_cc (maskFn b) HM9 (maskFn_nofirst_cc b) (runPass patientIdRE trueV (maskFn b) (runPass insuranceRE trueV (maskFn b) (runPass addressRE trueV (maskFn b) (runPass dobRE trueV (maskFn b) (runPass emailRE trueV (maskFn b) (runPass phoneRE trueV (maskFn b) (runPass mrnRE trueV (maskFn b) (runPass ssnRE trueV (maskFn b) t)))))))) _

end JiraDashboard
